import Mathlib

/-!
Verification of the cepy build/version-range resolution and manifest-generation
engine, shallowly embedded from the JavaScript sources.

Conventions used throughout the embedding:
* Host version numbers in the registry are decimals with exactly one fractional
  digit (e.g. `17.0`, `13.5`); they are represented exactly as naturals counting
  tenths (`17.0 ↦ 170`).  `Number.prototype.toFixed(1)` on such a value is the
  rendering `fmtTenths`.
* JavaScript exceptions are modelled with `Except String`.
* Object fields that can hold `undefined`, `null` or a string are modelled with
  the three-state type `JsField`.
* The two module-level validation regexes carry the JavaScript `g` flag, so a
  call to `RegExp.prototype.test` reads and writes their `lastIndex` property;
  this state is modelled explicitly by `RegexState` and `testG`.
-/

deriving instance DecidableEq for Except

namespace Cepy

/-- Version range of a product inside one family, in tenths (`min 170` = 17.0). -/
structure VersionRange where
  min : Nat
  max : Nat
deriving DecidableEq, Repr

/-- One product record of the `HOSTS` registry (hosts.js). -/
structure ProductRecord where
  familyname : String
  name : String
  ids : List String
  version : VersionRange
  binWin : String
  binMac : String
  folder : Option String := none
  x64 : Bool
deriving DecidableEq, Repr

/-- Products of the `cc2015.5` family (hosts.js `HOSTS['cc2015.5']`). -/
def family_cc2015_5 : List (String × ProductRecord) :=
  [ ("photoshop",
     { familyname := "Photoshop", name := "Photoshop", ids := ["PHXS", "PHSP"],
       version := ⟨170, 179⟩, binWin := "Photoshop.exe",
       binMac := "Adobe Photoshop CC 2015.5.app", x64 := true }),
    ("illustrator",
     { familyname := "Illustrator", name := "Illustrator", ids := ["ILST"],
       version := ⟨200, 209⟩,
       binWin := "Support Files/Contents/Windows/Illustrator.exe",
       binMac := "Adobe Illustrator CC 2015.3.app",
       folder := some "Adobe Illustrator CC 2015.3", x64 := true }),
    ("indesign",
     { familyname := "InDesign", name := "InDesign", ids := ["IDSN"],
       version := ⟨110, 119⟩, binWin := "InDesign.exe",
       binMac := "Adobe InDesign CC 2015.app", x64 := true }),
    ("flash",
     { familyname := "Flash", name := "Flash", ids := ["FLPR"],
       version := ⟨150, 159⟩, binWin := "Flash.exe",
       binMac := "Adobe Flash CC 2015.app",
       folder := some "Adobe Flash CC 2015.2", x64 := true }),
    ("aftereffects",
     { familyname := "AfterEffects", name := "After Effects", ids := ["AEFT"],
       version := ⟨135, 139⟩, binWin := "Support Files/AfterFX.exe",
       binMac := "Adobe After Effects CC 2015.3.app",
       folder := some "Adobe After Effects CC 2015.3", x64 := true }),
    ("premiere",
     { familyname := "Premiere", name := "Premiere Pro", ids := ["PPRO"],
       version := ⟨100, 109⟩, binWin := "Adobe Premiere Pro.exe",
       binMac := "Adobe Premiere Pro CC 2015.app",
       folder := some "Adobe Premiere Pro CC 2015.3", x64 := true }),
    ("prelude",
     { familyname := "Prelude", name := "Prelude", ids := ["PRLD"],
       version := ⟨50, 59⟩, binWin := "Prelude.exe",
       binMac := "Adobe Prelude CC 2015.app",
       folder := some "Adobe Prelude CC 2015.4", x64 := false }),
    ("dreamweaver",
     { familyname := "Dreamweaver", name := "Dreamweaver", ids := ["DRWV"],
       version := ⟨150, 159⟩, binWin := "Dreamweaver.exe",
       binMac := "Adobe Dreamweaver CC 2015.app", x64 := false }),
    ("incopy",
     { familyname := "InCopy", name := "InCopy", ids := ["AICY"],
       version := ⟨110, 119⟩, binWin := "InCopy.exe",
       binMac := "Adobe InCopy CC 2015.app", x64 := true }) ]

/-- Products of the `cc2015` family (hosts.js `HOSTS['cc2015']`). -/
def family_cc2015 : List (String × ProductRecord) :=
  [ ("photoshop",
     { familyname := "Photoshop", name := "Photoshop", ids := ["PHXS", "PHSP"],
       version := ⟨160, 169⟩, binWin := "Photoshop.exe",
       binMac := "Adobe Photoshop CC 2015.app", x64 := true }),
    ("illustrator",
     { familyname := "Illustrator", name := "Illustrator", ids := ["ILST"],
       version := ⟨190, 199⟩,
       binWin := "Support Files/Contents/Windows/Illustrator.exe",
       binMac := "Adobe Illustrator CC 2015.app", x64 := true }),
    ("indesign",
     { familyname := "InDesign", name := "InDesign", ids := ["IDSN"],
       version := ⟨110, 119⟩, binWin := "InDesign.exe",
       binMac := "Adobe InDesign CC 2015.app", x64 := true }),
    ("flash",
     { familyname := "Flash", name := "Flash", ids := ["FLPR"],
       version := ⟨150, 159⟩, binWin := "Flash.exe",
       binMac := "Adobe Flash CC 2015.app", x64 := true }),
    ("aftereffects",
     { familyname := "AfterEffects", name := "After Effects", ids := ["AEFT"],
       version := ⟨135, 139⟩, binWin := "Support Files/AfterFX.exe",
       binMac := "Adobe After Effects CC 2015.app", x64 := true }),
    ("premiere",
     { familyname := "Premiere", name := "Premiere Pro", ids := ["PPRO"],
       version := ⟨90, 99⟩, binWin := "Adobe Premiere Pro.exe",
       binMac := "Adobe Premiere Pro CC 2015.app", x64 := true }),
    ("prelude",
     { familyname := "Prelude", name := "Prelude", ids := ["PRLD"],
       version := ⟨40, 49⟩, binWin := "Prelude.exe",
       binMac := "Adobe Prelude CC 2015.app", x64 := false }),
    ("dreamweaver",
     { familyname := "Dreamweaver", name := "Dreamweaver", ids := ["DRWV"],
       version := ⟨150, 159⟩, binWin := "Dreamweaver.exe",
       binMac := "Adobe Dreamweaver CC 2015.app", x64 := false }),
    ("incopy",
     { familyname := "InCopy", name := "InCopy", ids := ["AICY"],
       version := ⟨110, 119⟩, binWin := "InCopy.exe",
       binMac := "Adobe InCopy CC 2015.app", x64 := true }) ]

/-- Products of the `cc2014` family (hosts.js `HOSTS['cc2014']`). -/
def family_cc2014 : List (String × ProductRecord) :=
  [ ("photoshop",
     { familyname := "Photoshop", name := "Photoshop", ids := ["PHXS", "PHSP"],
       version := ⟨150, 159⟩, binWin := "Photoshop.exe",
       binMac := "Adobe Photoshop CC 2014.app", x64 := true }),
    ("illustrator",
     { familyname := "Illustrator", name := "Illustrator", ids := ["ILST"],
       version := ⟨180, 189⟩,
       binWin := "Support Files/Contents/Windows/Illustrator.exe",
       binMac := "Adobe Illustrator CC 2014.app", x64 := true }),
    ("indesign",
     { familyname := "InDesign", name := "InDesign", ids := ["IDSN"],
       version := ⟨100, 109⟩, binWin := "InDesign.exe",
       binMac := "Adobe InDesign CC 2014.app", x64 := true }),
    ("flash",
     { familyname := "Flash", name := "Flash", ids := ["FLPR"],
       version := ⟨140, 149⟩, binWin := "Flash.exe",
       binMac := "Adobe Flash CC 2014.app", x64 := true }),
    ("aftereffects",
     { familyname := "AfterEffects", name := "After Effects", ids := ["AEFT"],
       version := ⟨130, 134⟩, binWin := "Support Files/AfterFX.exe",
       binMac := "Adobe After Effects CC 2014.app", x64 := true }),
    ("premiere",
     { familyname := "Premiere", name := "Premiere Pro", ids := ["PPRO"],
       version := ⟨80, 89⟩, binWin := "Adobe Premiere Pro.exe",
       binMac := "Adobe Premiere Pro CC 2014.app", x64 := true }),
    ("prelude",
     { familyname := "Prelude", name := "Prelude", ids := ["PRLD"],
       version := ⟨30, 39⟩, binWin := "Prelude.exe",
       binMac := "Adobe Prelude CC 2014.app", x64 := false }),
    ("dreamweaver",
     { familyname := "Dreamweaver", name := "Dreamweaver", ids := ["DRWV"],
       version := ⟨140, 149⟩, binWin := "Dreamweaver.exe",
       binMac := "Adobe Dreamweaver CC 2014.app", x64 := false }),
    ("incopy",
     { familyname := "InCopy", name := "InCopy", ids := ["AICY"],
       version := ⟨100, 109⟩, binWin := "InCopy.exe",
       binMac := "Adobe InCopy CC 2014.app", x64 := true }) ]

/-- Products of the `cc` family (hosts.js `HOSTS['cc']`). -/
def family_cc : List (String × ProductRecord) :=
  [ ("photoshop",
     { familyname := "Photoshop", name := "Photoshop", ids := ["PHXS", "PHSP"],
       version := ⟨140, 149⟩, binWin := "Photoshop.exe",
       binMac := "Adobe Photoshop CC.app", x64 := true }),
    ("illustrator",
     { familyname := "Illustrator", name := "Illustrator", ids := ["ILST"],
       version := ⟨170, 179⟩,
       binWin := "Support Files/Contents/Windows/Illustrator.exe",
       binMac := "Adobe Illustrator CC.app", x64 := true }),
    ("indesign",
     { familyname := "InDesign", name := "InDesign", ids := ["IDSN"],
       version := ⟨90, 99⟩, binWin := "InDesign.exe",
       binMac := "Adobe InDesign CC.app", x64 := true }),
    ("flash",
     { familyname := "Flash", name := "Flash", ids := ["FLPR"],
       version := ⟨130, 139⟩, binWin := "Flash.exe",
       binMac := "Adobe Flash CC.app", x64 := true }),
    ("aftereffects",
     { familyname := "AfterEffects", name := "After Effects", ids := ["AEFT"],
       version := ⟨120, 129⟩, binWin := "Support Files/AfterFX.exe",
       binMac := "Adobe After Effects CC.app", x64 := true }),
    ("premiere",
     { familyname := "Premiere", name := "Premiere Pro", ids := ["PPRO"],
       version := ⟨70, 79⟩, binWin := "Adobe Premiere Pro.exe",
       binMac := "Adobe Premiere Pro CC.app", x64 := true }),
    ("prelude",
     { familyname := "Prelude", name := "Prelude", ids := ["PRLD"],
       version := ⟨20, 29⟩, binWin := "Prelude.exe",
       binMac := "Adobe Prelude CC.app", x64 := false }),
    ("dreamweaver",
     { familyname := "Dreamweaver", name := "Dreamweaver", ids := ["DRWV"],
       version := ⟨130, 139⟩, binWin := "Dreamweaver.exe",
       binMac := "Adobe Dreamweaver CC.app", x64 := false }),
    ("incopy",
     { familyname := "InCopy", name := "InCopy", ids := ["AICY"],
       version := ⟨90, 99⟩, binWin := "InCopy.exe",
       binMac := "Adobe InCopy CC.app", x64 := true }) ]

/-- Supported host products by family (hosts.js `HOSTS`), ordered as declared. -/
def HOSTS : List (String × List (String × ProductRecord)) :=
  [ ("cc2015.5", family_cc2015_5),
    ("cc2015", family_cc2015),
    ("cc2014", family_cc2014),
    ("cc", family_cc) ]

/-- Gets information about a single product (hosts.js `getProduct`).
The `hasOwnProperty` checks become association-list lookups; a failed check
throws, modelled with `Except.error` carrying the source's message text. -/
def getProduct (product family : String) : Except String ProductRecord :=
  match HOSTS.lookup family with
  | none => .error ("Unknown product family \"" ++ family ++ "\".")
  | some fam =>
    match fam.lookup product with
    | none => .error ("Unknown product \"" ++ product ++ " (" ++ family ++ ")")
    | some r => .ok r

/-- JavaScript update `if (!min || host.version.min < min) min = host.version.min`
on the accumulator of `getVersionRange`; `!min` is true for `undefined` (`none`)
and for the number `0`. -/
def jsUpdMin (cur : Option Nat) (v : Nat) : Option Nat :=
  match cur with
  | none => some v
  | some c => if c = 0 then some v else if v < c then some v else some c

/-- JavaScript update `if (!max || host.version.max > max) max = host.version.max`
on the accumulator of `getVersionRange`. -/
def jsUpdMax (cur : Option Nat) (v : Nat) : Option Nat :=
  match cur with
  | none => some v
  | some c => if c = 0 then some v else if c < v then some v else some c

/-- Loop of hosts.js `getVersionRange`, iterating over the families with the two
mutable accumulators `min` and `max` (initially `undefined`, i.e. `none`). -/
def getVersionRangeGo (product : String) :
    List String → Option Nat → Option Nat → Except String (Option Nat × Option Nat)
  | [], mn, mx => .ok (mn, mx)
  | f :: rest, mn, mx =>
    match getProduct product f with
    | .error e => .error e
    | .ok host =>
      getVersionRangeGo product rest (jsUpdMin mn host.version.min) (jsUpdMax mx host.version.max)

/-- Returns the merged product version range for the given product families
(hosts.js `getVersionRange`).  Each component is `none` exactly when the
JavaScript value would still be `undefined` (empty family list). -/
def getVersionRange (product : String) (families : List String) :
    Except String (Option Nat × Option Nat) :=
  getVersionRangeGo product families none none

/-- Alias table of hosts.js `mapToFamilyName` (MXI legacy product names). -/
def legacyAliasTable : List (String × String) :=
  [ ("Illustrator", "Illustrator,Illustrator32,Illustrator64"),
    ("InCopy", "InCopy,InCopy32,InCopy64"),
    ("InDesign", "InDesign,InDesign32,InDesign64"),
    ("Photoshop", "Photoshop,Photoshop32,Photoshop64") ]

/-- Maps the passed product to its family name equivalent, needed in MXI files
(hosts.js `mapToFamilyName`).  The JavaScript `map[n] || n` fallback is faithful
because every alias in the table is a non-empty (truthy) string. -/
def mapToFamilyName (product : String) : Except String String :=
  match getProduct product "cc" with
  | .error e => .error e
  | .ok r =>
    match legacyAliasTable.lookup r.familyname with
    | some mapped => .ok mapped
    | none => .ok r.familyname

/-- Rendering of `v.toFixed(1)` for a registry version value `v` held in tenths. -/
def fmtTenths (n : Nat) : String :=
  toString (n / 10) ++ "." ++ toString (n % 10)

example : getProduct "photoshop" "cc2014" =
    .ok { familyname := "Photoshop", name := "Photoshop", ids := ["PHXS", "PHSP"],
          version := ⟨150, 159⟩, binWin := "Photoshop.exe",
          binMac := "Adobe Photoshop CC 2014.app", x64 := true } := by decide

example : getVersionRange "photoshop" ["cc2014", "cc2015"] = .ok (some 150, some 169) := by decide

example : mapToFamilyName "photoshop" = .ok "Photoshop,Photoshop32,Photoshop64" := by decide

example : mapToFamilyName "premiere" = .ok "Premiere" := by decide

example : fmtTenths 169 = "16.9" := by decide

/-- Sequence of registry lookups performed by `getVersionRange`, in order. -/
def lookups (product : String) : List String → Except String (List ProductRecord)
  | [] => .ok []
  | f :: rest =>
    match getProduct product f with
    | .error e => .error e
    | .ok r =>
      match lookups product rest with
      | .error e => .error e
      | .ok rs => .ok (r :: rs)

/-- Boolean success test for `Except` values. -/
def exceptOk {ε α : Type} : Except ε α → Bool
  | .ok _ => true
  | .error _ => false

/-- A successful association-list lookup returns a stored value. -/
theorem lookup_mem {β : Type} {l : List (String × β)} {k : String} {v : β}
    (h : l.lookup k = some v) : v ∈ l.map Prod.snd := by
  induction l with
  | nil => simp [List.lookup] at h
  | cons hd tl ih =>
    rw [List.lookup] at h
    by_cases hk : k == hd.1
    · simp [hk] at h
      simp [h.symm]
    · simp [hk] at h
      simpa using Or.inr (ih h)

/-- All 36 records stored in the registry. -/
def allRecords : List ProductRecord :=
  (HOSTS.map Prod.snd).flatMap (fun fam => fam.map Prod.snd)

theorem allRecords_wf :
    ∀ r ∈ allRecords, 0 < r.version.min ∧ r.version.min ≤ r.version.max := by decide

/-- Registry well-formedness: every record a successful `getProduct` can return
has a positive minimum and `min ≤ max`. -/
theorem getProduct_wf {p f : String} {r : ProductRecord}
    (h : getProduct p f = .ok r) :
    0 < r.version.min ∧ r.version.min ≤ r.version.max := by
  unfold getProduct at h
  split at h
  next => exact absurd h (by simp)
  next fam hf =>
    split at h
    next => exact absurd h (by simp)
    next r' hp =>
      have hr : r' = r := by simpa using h
      subst hr
      have hmem : r' ∈ allRecords := by
        have h1 := lookup_mem hf
        have h2 := lookup_mem hp
        unfold allRecords
        rw [List.mem_flatMap]
        exact ⟨fam, h1, h2⟩
      exact allRecords_wf r' hmem

theorem lookups_mem {p : String} {l : List String} {rs : List ProductRecord}
    (h : lookups p l = .ok rs) {r : ProductRecord} (hr : r ∈ rs) :
    ∃ f ∈ l, getProduct p f = .ok r := by
  induction l generalizing rs with
  | nil =>
    simp [lookups] at h
    subst h
    cases hr
  | cons f rest ih =>
    rw [lookups] at h
    cases hf : getProduct p f with
    | error e => rw [hf] at h; exact absurd h (by simp)
    | ok r0 =>
      rw [hf] at h
      cases hrest : lookups p rest with
      | error e => rw [hrest] at h; exact absurd h (by simp)
      | ok rs' =>
        rw [hrest] at h
        have hcons : r0 :: rs' = rs := by simpa using h
        subst hcons
        rcases List.mem_cons.mp hr with heq | htl
        · subst heq
          exact ⟨f, by simp, hf⟩
        · obtain ⟨f', hmem, hgp⟩ := ih hrest htl
          exact ⟨f', by simp [hmem], hgp⟩

theorem lookups_mem_of_mem {p : String} {l : List String} {rs : List ProductRecord}
    (h : lookups p l = .ok rs) {f : String} (hf : f ∈ l) {r : ProductRecord}
    (hr : getProduct p f = .ok r) : r ∈ rs := by
  induction l generalizing rs with
  | nil => cases hf
  | cons f0 rest ih =>
    rw [lookups] at h
    cases hf0 : getProduct p f0 with
    | error e => rw [hf0] at h; exact absurd h (by simp)
    | ok r0 =>
      rw [hf0] at h
      cases hrest : lookups p rest with
      | error e => rw [hrest] at h; exact absurd h (by simp)
      | ok rs' =>
        rw [hrest] at h
        have hcons : r0 :: rs' = rs := by simpa using h
        subst hcons
        rcases List.mem_cons.mp hf with heq | htl
        · subst heq
          rw [hf0] at hr
          have : r0 = r := by simpa using hr
          simp [this]
        · simp [ih hrest htl]

theorem lookups_ok_of_all {p : String} {l : List String}
    (h : ∀ f ∈ l, exceptOk (getProduct p f) = true) :
    ∃ rs, lookups p l = .ok rs := by
  induction l with
  | nil => exact ⟨[], rfl⟩
  | cons f rest ih =>
    have hf := h f (by simp)
    cases hgp : getProduct p f with
    | error e => rw [hgp] at hf; simp [exceptOk] at hf
    | ok r =>
      obtain ⟨rs, hrs⟩ := ih (fun g hg => h g (by simp [hg]))
      exact ⟨r :: rs, by rw [lookups, hgp, hrs]⟩

/-- Lower bounds of the `min`-fold used to characterise `getVersionRangeGo`. -/
theorem foldMin_le (l : List ProductRecord) (a : Nat) :
    (l.foldl (fun x r => Nat.min x r.version.min) a) ≤ a ∧
      ∀ r ∈ l, (l.foldl (fun x r => Nat.min x r.version.min) a) ≤ r.version.min := by
  induction l generalizing a with
  | nil => simp
  | cons hd tl ih =>
    obtain ⟨h1, h2⟩ := ih (Nat.min a hd.version.min)
    refine ⟨le_trans h1 (Nat.min_le_left _ _), ?_⟩
    intro r hr
    rcases hr with _ | hr'
    · exact le_trans h1 (Nat.min_le_right _ _)
    · exact h2 r ‹r ∈ tl›

theorem foldMin_attained (l : List ProductRecord) (a : Nat) :
    (l.foldl (fun x r => Nat.min x r.version.min) a) = a ∨
      ∃ r ∈ l, (l.foldl (fun x r => Nat.min x r.version.min) a) = r.version.min := by
  induction l generalizing a with
  | nil => simp
  | cons hd tl ih =>
    rcases ih (Nat.min a hd.version.min) with h | ⟨r, hr, heq⟩
    · rw [List.foldl_cons, h]
      rcases Nat.le_total a hd.version.min with hle | hle
      · exact Or.inl (Nat.min_eq_left hle)
      · exact Or.inr ⟨hd, by simp, Nat.min_eq_right hle⟩
    · exact Or.inr ⟨r, by simp [hr], by simpa using heq⟩

theorem foldMax_ge (l : List ProductRecord) (a : Nat) :
    a ≤ (l.foldl (fun x r => Nat.max x r.version.max) a) ∧
      ∀ r ∈ l, r.version.max ≤ (l.foldl (fun x r => Nat.max x r.version.max) a) := by
  induction l generalizing a with
  | nil => simp
  | cons hd tl ih =>
    obtain ⟨h1, h2⟩ := ih (Nat.max a hd.version.max)
    refine ⟨le_trans (Nat.le_max_left _ _) h1, ?_⟩
    intro r hr
    rcases hr with _ | hr'
    · exact le_trans (Nat.le_max_right _ _) h1
    · exact h2 r ‹r ∈ tl›

theorem foldMax_attained (l : List ProductRecord) (a : Nat) :
    (l.foldl (fun x r => Nat.max x r.version.max) a) = a ∨
      ∃ r ∈ l, (l.foldl (fun x r => Nat.max x r.version.max) a) = r.version.max := by
  induction l generalizing a with
  | nil => simp
  | cons hd tl ih =>
    rcases ih (Nat.max a hd.version.max) with h | ⟨r, hr, heq⟩
    · rw [List.foldl_cons, h]
      rcases Nat.le_total a hd.version.max with hle | hle
      · exact Or.inr ⟨hd, by simp, Nat.max_eq_right hle⟩
      · exact Or.inl (Nat.max_eq_left hle)
    · exact Or.inr ⟨r, by simp [hr], by simpa using heq⟩

/-- With positive accumulators, the loop of `getVersionRange` computes the plain
`min`/`max` folds over the looked-up records (the JavaScript falsiness test
`!min` never fires because registry minima are positive). -/
theorem getVersionRangeGo_char {p : String} {l : List String} {rs : List ProductRecord}
    (h : lookups p l = .ok rs) (a b : Nat) (ha : 0 < a) (hb : 0 < b) :
    getVersionRangeGo p l (some a) (some b) =
      .ok (some (rs.foldl (fun x r => Nat.min x r.version.min) a),
           some (rs.foldl (fun x r => Nat.max x r.version.max) b)) := by
  induction l generalizing rs a b with
  | nil =>
    simp [lookups] at h
    subst h
    simp [getVersionRangeGo]
  | cons f rest ih =>
    rw [lookups] at h
    cases hf : getProduct p f with
    | error e => rw [hf] at h; exact absurd h (by simp)
    | ok r =>
      rw [hf] at h
      cases hrest : lookups p rest with
      | error e => rw [hrest] at h; exact absurd h (by simp)
      | ok rs' =>
        rw [hrest] at h
        have hres : r :: rs' = rs := by simpa using h
        subst hres
        have hrpos := (getProduct_wf hf).1
        have hmin : jsUpdMin (some a) r.version.min = some (Nat.min a r.version.min) := by
          unfold jsUpdMin
          have : ¬ a = 0 := Nat.pos_iff_ne_zero.mp ha
          rcases Nat.lt_or_ge r.version.min a with hlt | hge
          · simp [this, hlt, Nat.min_eq_right (le_of_lt hlt)]
          · simp [this, Nat.not_lt.mpr hge, Nat.min_eq_left hge]
        have hmax : jsUpdMax (some b) r.version.max = some (Nat.max b r.version.max) := by
          unfold jsUpdMax
          have : ¬ b = 0 := Nat.pos_iff_ne_zero.mp hb
          rcases Nat.lt_or_ge b r.version.max with hlt | hge
          · simp [this, hlt, Nat.max_eq_right (le_of_lt hlt)]
          · simp [this, Nat.not_lt.mpr hge, Nat.max_eq_left hge]
        have hstep : getVersionRangeGo p (f :: rest) (some a) (some b) =
            getVersionRangeGo p rest (jsUpdMin (some a) r.version.min)
              (jsUpdMax (some b) r.version.max) := by
          simp only [getVersionRangeGo, hf]
        rw [hstep, hmin, hmax,
          ih hrest (Nat.min a r.version.min) (Nat.max b r.version.max)
            (lt_min ha hrpos) (lt_of_lt_of_le hb (Nat.le_max_left _ _))]
        simp

/-- Main characterisation of `getVersionRange` on a valid, non-empty family list:
it succeeds and returns the smallest `version.min` and the largest `version.max`
among the looked-up records, with `min ≤ max`. -/
theorem getVersionRange_spec {p : String} {l : List String} (hne : l ≠ [])
    (hval : ∀ f ∈ l, exceptOk (getProduct p f) = true) :
    ∃ rs mn mx, lookups p l = .ok rs ∧
      getVersionRange p l = .ok (some mn, some mx) ∧
      (∃ r ∈ rs, r.version.min = mn) ∧ (∀ r ∈ rs, mn ≤ r.version.min) ∧
      (∃ r ∈ rs, r.version.max = mx) ∧ (∀ r ∈ rs, r.version.max ≤ mx) ∧
      mn ≤ mx := by
  cases l with
  | nil => exact absurd rfl hne
  | cons f rest =>
    have hf := hval f (by simp)
    cases hgp : getProduct p f with
    | error e => rw [hgp] at hf; simp [exceptOk] at hf
    | ok r =>
      obtain ⟨rs', hrest⟩ := lookups_ok_of_all (p := p) (l := rest)
        (fun g hg => hval g (by simp [hg]))
      obtain ⟨hrpos, hrle⟩ := getProduct_wf hgp
      have hlk : lookups p (f :: rest) = .ok (r :: rs') := by
        rw [lookups, hgp, hrest]
      have hgo : getVersionRange p (f :: rest) =
          .ok (some (rs'.foldl (fun x r => Nat.min x r.version.min) r.version.min),
               some (rs'.foldl (fun x r => Nat.max x r.version.max) r.version.max)) := by
        unfold getVersionRange
        have hstep : getVersionRangeGo p (f :: rest) none none =
            getVersionRangeGo p rest (jsUpdMin none r.version.min)
              (jsUpdMax none r.version.max) := by
          simp only [getVersionRangeGo, hgp]
        rw [hstep]
        have h1 : jsUpdMin none r.version.min = some r.version.min := rfl
        have h2 : jsUpdMax none r.version.max = some r.version.max := rfl
        rw [h1, h2]
        exact getVersionRangeGo_char hrest r.version.min r.version.max hrpos
          (lt_of_lt_of_le hrpos hrle)
      refine ⟨r :: rs', _, _, hlk, hgo, ?_, ?_, ?_, ?_, ?_⟩
      · rcases foldMin_attained rs' r.version.min with h | ⟨r', hr', heq⟩
        · exact ⟨r, by simp, h.symm⟩
        · exact ⟨r', by simp [hr'], heq.symm⟩
      · intro r' hr'
        rcases hr' with _ | hmem
        · exact (foldMin_le rs' r.version.min).1
        · exact (foldMin_le rs' r.version.min).2 r' ‹r' ∈ rs'›
      · rcases foldMax_attained rs' r.version.max with h | ⟨r', hr', heq⟩
        · exact ⟨r, by simp, h.symm⟩
        · exact ⟨r', by simp [hr'], heq.symm⟩
      · intro r' hr'
        rcases hr' with _ | hmem
        · exact (foldMax_ge rs' r.version.max).1
        · exact (foldMax_ge rs' r.version.max).2 r' ‹r' ∈ rs'›
      · calc (rs'.foldl (fun x r => Nat.min x r.version.min) r.version.min)
            ≤ r.version.min := (foldMin_le rs' r.version.min).1
          _ ≤ r.version.max := hrle
          _ ≤ (rs'.foldl (fun x r => Nat.max x r.version.max) r.version.max) :=
              (foldMax_ge rs' r.version.max).1

/-- A successful association-list lookup finds the key/value pair. -/
theorem lookup_key_mem {β : Type} {l : List (String × β)} {a : String} {c : β}
    (h : l.lookup a = some c) : (a, c) ∈ l := by
  induction l with
  | nil => simp [List.lookup] at h
  | cons hd tl ih =>
    rw [List.lookup] at h
    by_cases hk : a == hd.1
    · have hkeq : a = hd.1 := by simpa using hk
      simp [hk] at h
      subst hkeq
      simp [h.symm]
    · simp [hk] at h
      simp [ih h]

/-- C1: for every product key and non-empty sequence of families each valid in
the registry for that product, `getVersionRange` succeeds and returns `min`
equal to the smallest `versionRange.min` and `max` equal to the largest
`versionRange.max` among the looked-up per-family records, with `min ≤ max`. -/
theorem C1_getVersionRange_min_max (p : String) (l : List String) (hne : l ≠ [])
    (hval : ∀ f ∈ l, exceptOk (getProduct p f) = true) :
    ∃ rs mn mx, lookups p l = .ok rs ∧
      getVersionRange p l = .ok (some mn, some mx) ∧
      (∃ r ∈ rs, r.version.min = mn) ∧ (∀ r ∈ rs, mn ≤ r.version.min) ∧
      (∃ r ∈ rs, r.version.max = mx) ∧ (∀ r ∈ rs, r.version.max ≤ mx) ∧
      mn ≤ mx :=
  getVersionRange_spec hne hval

/-- Witness for C1 at `photoshop` over `["cc2014", "cc2015"]`. -/
theorem C1_witness :
    (["cc2014", "cc2015"] ≠ ([] : List String)) ∧
    (∀ f ∈ ["cc2014", "cc2015"], exceptOk (getProduct "photoshop" f) = true) ∧
    (∃ rs mn mx, lookups "photoshop" ["cc2014", "cc2015"] = .ok rs ∧
      getVersionRange "photoshop" ["cc2014", "cc2015"] = .ok (some mn, some mx) ∧
      (∃ r ∈ rs, r.version.min = mn) ∧ (∀ r ∈ rs, mn ≤ r.version.min) ∧
      (∃ r ∈ rs, r.version.max = mx) ∧ (∀ r ∈ rs, r.version.max ≤ mx) ∧
      mn ≤ mx) :=
  ⟨by decide, by decide,
    C1_getVersionRange_min_max "photoshop" ["cc2014", "cc2015"] (by decide) (by decide)⟩

/-- C9: `mapToFamilyName` returns the comma-joined alias list for exactly the
four product keys `illustrator`, `incopy`, `indesign`, `photoshop`, and for any
other valid product key it returns the plain family display name unchanged. -/
theorem C9_mapToFamilyName_aliases :
    mapToFamilyName "illustrator" = .ok "Illustrator,Illustrator32,Illustrator64" ∧
    mapToFamilyName "incopy" = .ok "InCopy,InCopy32,InCopy64" ∧
    mapToFamilyName "indesign" = .ok "InDesign,InDesign32,InDesign64" ∧
    mapToFamilyName "photoshop" = .ok "Photoshop,Photoshop32,Photoshop64" ∧
    ∀ p r, getProduct p "cc" = .ok r →
      p ∉ ["illustrator", "incopy", "indesign", "photoshop"] →
      mapToFamilyName p = .ok r.familyname := by
  refine ⟨by decide, by decide, by decide, by decide, ?_⟩
  intro p r hgp hnot
  unfold getProduct at hgp
  split at hgp
  next hnone => exact absurd hnone (by decide)
  next fam hfam =>
    have hfameq : fam = family_cc := by
      have h2 := hfam.symm.trans (show HOSTS.lookup "cc" = some family_cc from rfl)
      exact Option.some_inj.mp h2
    subst hfameq
    split at hgp
    next => exact absurd hgp (by simp)
    next r' hp =>
      have hr : r' = r := by simpa using hgp
      subst hr
      have hmem := lookup_key_mem hp
      simp only [family_cc, List.mem_cons, Prod.mk.injEq, List.not_mem_nil, or_false] at hmem
      rcases hmem with h0 | h0 | h0 | h0 | h0 | h0 | h0 | h0 | h0 <;>
        obtain ⟨rfl, rfl⟩ := h0
      · exact absurd (by decide) hnot
      · exact absurd (by decide) hnot
      · exact absurd (by decide) hnot
      · decide
      · decide
      · decide
      · decide
      · decide
      · exact absurd (by decide) hnot

/-- Witness for C9 at the non-legacy product `premiere`. -/
theorem C9_witness :
    getProduct "premiere" "cc" = .ok
      { familyname := "Premiere", name := "Premiere Pro", ids := ["PPRO"],
        version := ⟨70, 79⟩, binWin := "Adobe Premiere Pro.exe",
        binMac := "Adobe Premiere Pro CC.app", x64 := true } ∧
    mapToFamilyName "premiere" = .ok "Premiere" :=
  ⟨by decide,
    C9_mapToFamilyName_aliases.2.2.2.2 "premiere"
      { familyname := "Premiere", name := "Premiere Pro", ids := ["PPRO"],
        version := ⟨70, 79⟩, binWin := "Adobe Premiere Pro.exe",
        binMac := "Adobe Premiere Pro CC.app", x64 := true }
      (by decide) (by decide)⟩

/-- C10: `getVersionRange` is order-insensitive — permuting a valid family list
does not change the computed range. -/
theorem C10_getVersionRange_perm (p : String) (l1 l2 : List String)
    (hperm : l1.Perm l2)
    (hval : ∀ f ∈ l1, exceptOk (getProduct p f) = true) :
    getVersionRange p l1 = getVersionRange p l2 := by
  cases hl1 : l1 with
  | nil =>
    subst hl1
    rw [List.Perm.eq_nil hperm.symm]
  | cons f rest =>
    subst hl1
    have hne1 : (f :: rest) ≠ ([] : List String) := by simp
    have hne2 : l2 ≠ [] := by
      intro h
      subst h
      exact hne1 (List.Perm.eq_nil hperm)
    have hval2 : ∀ g ∈ l2, exceptOk (getProduct p g) = true := fun g hg =>
      hval g (hperm.mem_iff.mpr hg)
    obtain ⟨rs1, mn1, mx1, hlk1, hgv1, hat1, hlb1, hatx1, hub1, _⟩ :=
      getVersionRange_spec hne1 hval
    obtain ⟨rs2, mn2, mx2, hlk2, hgv2, hat2, hlb2, hatx2, hub2, _⟩ :=
      getVersionRange_spec hne2 hval2
    have key : ∀ {rsa rsb : List ProductRecord} {la lb : List String},
        la.Perm lb → lookups p la = .ok rsa → lookups p lb = .ok rsb →
        ∀ r ∈ rsa, r ∈ rsb := by
      intro rsa rsb la lb hab hla hlb r hr
      obtain ⟨g, hg, hgpr⟩ := lookups_mem hla hr
      exact lookups_mem_of_mem hlb (hab.mem_iff.mp hg) hgpr
    have hmn : mn1 = mn2 := by
      obtain ⟨r1, hr1, he1⟩ := hat1
      obtain ⟨r2, hr2, he2⟩ := hat2
      have h12 := hlb2 r1 (key hperm hlk1 hlk2 r1 hr1)
      have h21 := hlb1 r2 (key hperm.symm hlk2 hlk1 r2 hr2)
      omega
    have hmx : mx1 = mx2 := by
      obtain ⟨r1, hr1, he1⟩ := hatx1
      obtain ⟨r2, hr2, he2⟩ := hatx2
      have h12 := hub2 r1 (key hperm hlk1 hlk2 r1 hr1)
      have h21 := hub1 r2 (key hperm.symm hlk2 hlk1 r2 hr2)
      omega
    rw [hgv1, hgv2, hmn, hmx]

/-- Witness for C10 on a transposed family pair. -/
theorem C10_witness :
    (["cc2015", "cc2014"].Perm ["cc2014", "cc2015"]) ∧
    (∀ f ∈ ["cc2015", "cc2014"], exceptOk (getProduct "photoshop" f) = true) ∧
    getVersionRange "photoshop" ["cc2015", "cc2014"] =
      getVersionRange "photoshop" ["cc2014", "cc2015"] :=
  ⟨by decide, by decide,
    C10_getVersionRange_perm "photoshop" ["cc2015", "cc2014"] ["cc2014", "cc2015"]
      (by decide) (by decide)⟩

/-- The `families` field of a build: a single string (minimum-family mode) or
an array of strings (range mode), as distinguished by `typeof`/`Array.isArray`
checks in the sources. -/
inductive FamilySet where
  | single (s : String)
  | multi (l : List String)
deriving DecidableEq, Repr

/-- Registry lookup with a possibly-`undefined` family (`build.families[0]` on
an empty array yields `undefined`, and `HOSTS.hasOwnProperty(undefined)` is
false, so `getProduct` throws with the family printed as `undefined`). -/
def getProductJ (product : String) (family : Option String) : Except String ProductRecord :=
  match family with
  | some f => getProduct product f
  | none => .error ("Unknown product family \"undefined\".")

/-- Rendering `v.toFixed(1)` where `v` may still be `undefined`; JavaScript
would raise a `TypeError` in that case. -/
def jsToFixedOpt : Option Nat → Except String String
  | some n => .ok (fmtTenths n)
  | none => .error "TypeError: Cannot read property toFixed of undefined"

/-- Host entries contributed by one product to the `<Host>` list of
`generateBundleManifest` (template.js, lines 112-137): minimum mode emits one
`Version="min"` entry per host id of the product in the single family; range
mode emits `Version="[min,max]"` entries using the record of the first family
in the (sorted) list and the merged range of all families. -/
def hostEntriesFor (product : String) (families : FamilySet) : Except String (List String) :=
  match families with
  | .single fam =>
    match getProduct product fam with
    | .error e => .error e
    | .ok hostInfo =>
      .ok (hostInfo.ids.map (fun hostId =>
        "<Host Name=\"" ++ hostId ++ "\" Version=\"" ++ fmtTenths hostInfo.version.min ++ "\" />"))
  | .multi fams =>
    match getProductJ product fams.head? with
    | .error e => .error e
    | .ok hostInfo =>
      match getVersionRange product fams with
      | .error e => .error e
      | .ok range =>
        match jsToFixedOpt range.1 with
        | .error e => .error e
        | .ok mn =>
          match jsToFixedOpt range.2 with
          | .error e => .error e
          | .ok mx =>
            .ok (hostInfo.ids.map (fun hostId =>
              "<Host Name=\"" ++ hostId ++ "\" Version=\"[" ++ mn ++ "," ++ mx ++ "]\" />"))

/-- The complete `<Host>` list built by `generateBundleManifest` over the
build's products, in product order. -/
def computeHostList (products : List String) (families : FamilySet) :
    Except String (List String) :=
  match products with
  | [] => .ok []
  | p :: rest =>
    match hostEntriesFor p families with
    | .error e => .error e
    | .ok entries =>
      match computeHostList rest families with
      | .error e => .error e
      | .ok tail => .ok (entries ++ tail)

example : computeHostList ["photoshop"] (.multi ["cc2014", "cc2015"]) =
    .ok ["<Host Name=\"PHXS\" Version=\"[15.0,16.9]\" />",
         "<Host Name=\"PHSP\" Version=\"[15.0,16.9]\" />"] := by decide

example : computeHostList ["photoshop"] (.single "cc2015") =
    .ok ["<Host Name=\"PHXS\" Version=\"16.0\" />",
         "<Host Name=\"PHSP\" Version=\"16.0\" />"] := by decide

/-- C2: host entries of the rendered bundle manifest.  In minimum
(single-string) mode each declared product contributes one
`<Host Name="ID" Version="X.Y"/>` entry per host identifier carrying only that
family's `versionRange.min`, one decimal place, no upper bound; in range
(array) mode each product contributes `<Host Name="ID" Version="[X.Y,A.B]"/>`
entries carrying the resolved range, and `photoshop` over
`["cc2014","cc2015"]` yields `Version="[15.0,16.9]"`. -/
theorem C2_bundleManifest_hosts :
    (∀ (prods : List String) (f : String),
      (∀ p ∈ prods, exceptOk (getProduct p f) = true) →
      computeHostList prods (.single f) =
        .ok (prods.flatMap (fun p =>
          match getProduct p f with
          | .ok r => r.ids.map (fun hostId =>
              "<Host Name=\"" ++ hostId ++ "\" Version=\"" ++
                fmtTenths r.version.min ++ "\" />")
          | .error _ => []))) ∧
    (∀ (prods : List String) (f0 : String) (frest : List String),
      (∀ p ∈ prods, ∀ fm ∈ f0 :: frest, exceptOk (getProduct p fm) = true) →
      computeHostList prods (.multi (f0 :: frest)) =
        .ok (prods.flatMap (fun p =>
          match getProduct p f0, getVersionRange p (f0 :: frest) with
          | .ok r, .ok (some mn, some mx) => r.ids.map (fun hostId =>
              "<Host Name=\"" ++ hostId ++ "\" Version=\"[" ++
                fmtTenths mn ++ "," ++ fmtTenths mx ++ "]\" />")
          | _, _ => []))) ∧
    computeHostList ["photoshop"] (.multi ["cc2014", "cc2015"]) =
      .ok ["<Host Name=\"PHXS\" Version=\"[15.0,16.9]\" />",
           "<Host Name=\"PHSP\" Version=\"[15.0,16.9]\" />"] := by
  refine ⟨?_, ?_, by decide⟩
  · intro prods f hval
    induction prods with
    | nil => rfl
    | cons p rest ih =>
      have hp := hval p (by simp)
      cases hgp : getProduct p f with
      | error e => rw [hgp] at hp; simp [exceptOk] at hp
      | ok r =>
        have htail := ih (fun q hq => hval q (by simp [hq]))
        rw [computeHostList]
        have hentries : hostEntriesFor p (.single f) =
            .ok (r.ids.map (fun hostId =>
              "<Host Name=\"" ++ hostId ++ "\" Version=\"" ++
                fmtTenths r.version.min ++ "\" />")) := by
          simp only [hostEntriesFor]
          rw [hgp]
        rw [hentries, htail]
        simp [hgp]
  · intro prods f0 frest hval
    induction prods with
    | nil => rfl
    | cons p rest ih =>
      have hne : (f0 :: frest) ≠ ([] : List String) := by simp
      obtain ⟨rs, mn, mx, hlk, hgv, _, _, _, _, _⟩ :=
        getVersionRange_spec hne (hval p (by simp))
      have hp0 := hval p (by simp) f0 (by simp)
      cases hgp : getProduct p f0 with
      | error e => rw [hgp] at hp0; simp [exceptOk] at hp0
      | ok r =>
        have htail := ih (fun q hq => hval q (by simp [hq]))
        rw [computeHostList]
        have hentries : hostEntriesFor p (.multi (f0 :: frest)) =
            .ok (r.ids.map (fun hostId =>
              "<Host Name=\"" ++ hostId ++ "\" Version=\"[" ++
                fmtTenths mn ++ "," ++ fmtTenths mx ++ "]\" />")) := by
          simp only [hostEntriesFor, List.head?_cons, getProductJ]
          rw [hgp, hgv]
          rfl
        rw [hentries, htail]
        simp [hgp, hgv]

/-- Witness for C2 instantiating the minimum-mode clause at
`photoshop` / `cc2015`. -/
theorem C2_witness :
    (∀ p ∈ ["photoshop"], exceptOk (getProduct p "cc2015") = true) ∧
    computeHostList ["photoshop"] (.single "cc2015") =
      .ok (["photoshop"].flatMap (fun p =>
        match getProduct p "cc2015" with
        | .ok r => r.ids.map (fun hostId =>
            "<Host Name=\"" ++ hostId ++ "\" Version=\"" ++
              fmtTenths r.version.min ++ "\" />")
        | .error _ => [])) :=
  ⟨by decide, C2_bundleManifest_hosts.1 ["photoshop"] "cc2015" (by decide)⟩

/-- A JavaScript object field that may be `undefined`, `null` or a string.
Non-string junk values behave exactly like `null` in every operation the build
model performs on these fields, so they are folded into `.null`. -/
inductive JsField where
  | undefinedVal
  | null
  | str (s : String)
deriving DecidableEq, Repr

/-- Template-literal rendering of a `JsField` (`` `${v}` ``). -/
def showJs : JsField → String
  | .undefinedVal => "undefined"
  | .null => "null"
  | .str s => s

/-- The test `typeof v === 'string' && v.length > 0` used by the bundle
back-fill customizer and the field checks. -/
def isNonemptyStr : JsField → Bool
  | .str s => !s.isEmpty
  | _ => false

/-- `_.defaultsDeep` on one field: only `undefined` is replaced. -/
def jsDefault (v d : JsField) : JsField :=
  match v with
  | .undefinedVal => d
  | x => x

/-- The extension fields relevant to build validation and the debug transform
(defaults/extension.js fixes `id`, `version` and `name`; it has no `author`). -/
structure Extension where
  id : JsField := .undefinedVal
  version : JsField := .undefinedVal
  name : JsField := .undefinedVal
  author : JsField := .undefinedVal
deriving DecidableEq, Repr

/-- The bundle identity fields checked by `_initialize`
(defaults/bundle.js: all four default to `null`). -/
structure Bundle where
  id : JsField := .undefinedVal
  version : JsField := .undefinedVal
  name : JsField := .undefinedVal
  author : JsField := .undefinedVal
deriving DecidableEq, Repr

/-- `_.defaultsDeep(extension, defaultExtensionConfig)`, restricted to the
fields the validator reads: `id` defaults to `""`, `version` to `"0.1.0"`,
`name` to `""`; there is no default for `author`. -/
def applyExtensionDefaults (e : Extension) : Extension :=
  { id := jsDefault e.id (.str ""),
    version := jsDefault e.version (.str "0.1.0"),
    name := jsDefault e.name (.str ""),
    author := e.author }

/-- `_.defaultsDeep(bundle, defaultBundleConfig)`: absent identity fields are
filled with the default `null`. -/
def bundleWithDefaults (b : Bundle) : Bundle :=
  { id := jsDefault b.id .null,
    version := jsDefault b.version .null,
    name := jsDefault b.name .null,
    author := jsDefault b.author .null }

/-- The `_.extendWith` customizer: keep `a` when it is a non-empty string,
otherwise take `b`. -/
def mergeField (a b : JsField) : JsField :=
  if isNonemptyStr a then a else b

/-- `_.extendWith(bundle, _.pick(extensions[0], 'id','version','name','author'),
customizer)`: `pick` only yields keys present on the (already defaulted) first
extension, so a field is merged exactly when it is not `undefined` there. -/
def backfillBundle (b : Bundle) (e0 : Extension) : Bundle :=
  { id := if e0.id = .undefinedVal then b.id else mergeField b.id e0.id,
    version := if e0.version = .undefinedVal then b.version else mergeField b.version e0.version,
    name := if e0.name = .undefinedVal then b.name else mergeField b.name e0.name,
    author := if e0.author = .undefinedVal then b.author else mergeField b.author e0.author }

/-- A character of the bundle-id class `[A-Za-z0-9._\-]`. -/
def isIdChar (c : Char) : Bool :=
  c.isAlpha || c.isDigit || c == '.' || c == '_' || c == '-'

/-- Total-match predicate of `bundleIdRegEx = /^[A-Za-z0-9._\-]+$/gi`
(the `i` flag is redundant for this class). -/
def idMatches (s : String) : Bool :=
  !s.isEmpty && s.data.all isIdChar

/-- One numeric component `\d{1,9}` of the bundle version pattern. -/
def isNumPart (s : String) : Bool :=
  decide (1 ≤ s.length) && decide (s.length ≤ 9) && s.data.all Char.isDigit

/-- The trailing component `(\w|_|-)+` of the bundle version pattern. -/
def isTailPart (s : String) : Bool :=
  !s.isEmpty && s.data.all (fun c => c.isAlphanum || c == '_' || c == '-')

/-- Total-match predicate of
`bundleVersionRegEx = /^\d{1,9}(\.\d{1,9}(\.\d{1,9}(\.(\w|_|-)+)?)?)?$/gi`.
Since no component of the pattern may contain a dot, a match is equivalent to
a shape analysis of the dot-separated components, computed structurally. -/
def splitCharsOnDot : List Char → List (List Char)
  | [] => [[]]
  | c :: rest =>
    let r := splitCharsOnDot rest
    if c = '.' then [] :: r
    else
      match r with
      | [] => [[c]]
      | h :: t => (c :: h) :: t

/-- The dot-separated components of a version string. -/
def versionComponents (s : String) : List String :=
  (splitCharsOnDot s.data).map (fun l => String.mk l)

def versionMatches (s : String) : Bool :=
  match versionComponents s with
  | [a] => isNumPart a
  | [a, b] => isNumPart a && isNumPart b
  | [a, b, c] => isNumPart a && isNumPart b && isNumPart c
  | [a, b, c, d] => isNumPart a && isNumPart b && isNumPart c && isTailPart d
  | _ => false

/-- The mutable `lastIndex` properties of the two module-level validation
regexes (`bundleIdRegEx`, `bundleVersionRegEx`); both carry the `g` flag, so
`RegExp.prototype.test` reads and writes this state. -/
structure RegexState where
  idLast : Nat := 0
  verLast : Nat := 0
deriving DecidableEq, Repr

/-- `RegExp.prototype.test` for an anchored (`^...$`) global regex: a match is
only possible when the search starts at `lastIndex = 0`; on success `lastIndex`
moves to the end of the match, on failure it resets to `0`.  Returns the test
result together with the new `lastIndex`. -/
def testG (fullMatch : String → Bool) (lastIndex : Nat) (s : String) : Bool × Nat :=
  if lastIndex == 0 && fullMatch s then (true, s.length) else (false, 0)

/-- `id.replace(/[\s]+/g, '_')`: every maximal run of whitespace becomes one
underscore. -/
def collapseWsStep (acc : String × Bool) (c : Char) : String × Bool :=
  if c.isWhitespace then
    (if acc.2 then acc else (acc.1.push '_', true))
  else (acc.1.push c, false)

def collapseWs (s : String) : String :=
  (s.data.foldl collapseWsStep ("", false)).1

/-- Derived file-system-safe base name: whitespace collapsed, lower-cased. -/
def lowerString (s : String) : String :=
  String.mk (s.data.map Char.toLower)

/-- Derived file-system-safe base name: whitespace collapsed, lower-cased;
JavaScript `toLowerCase` agrees with per-character lowering on these ids. -/
def computeBaseName (id : String) : String :=
  lowerString (collapseWs id)

/-- Observable state of one `Build` instance (the fields `_initialize`, the
debug transform and the renderer read or write). -/
structure BuildState where
  name : String
  source : String
  bundle : Bundle
  extensions : List Extension
  products : List String
  families : FamilySet
  baseName : String := ""
deriving DecidableEq, Repr

/-- `this.families.length` — character count in minimum (string) mode, element
count in range (array) mode. -/
def famLength : FamilySet → Nat
  | .single s => s.length
  | .multi l => l.length

/-- Message `Invalid bundle <field> "<value>" in build "<name>"`. -/
def msgInvalidField (field shown bname : String) : String :=
  "Invalid bundle " ++ field ++ " \"" ++ shown ++ "\" in build \"" ++ bname ++ "\""

def msgNoProducts (bname : String) : String :=
  "No products specified in build \"" ++ bname ++ "\"."

def msgNoFamilies (bname : String) : String :=
  "No families specified in build \"" ++ bname ++ "\"."

/-- Message of the source-folder check; `path.resolve` is environment-dependent
I/O and is modelled as the configured source path itself. -/
def msgInvalidSource (source bname : String) : String :=
  "Invalid source folder " ++ source ++ " in build \"" ++ bname ++ "\"."

/-- Mutations `_initialize` performs before any bundle-field check: defaulting
of every extension, then bundle defaulting and back-fill from the first
extension. -/
def initMutatedState (b : BuildState) (e0 : Extension) : BuildState :=
  { b with
    extensions := b.extensions.map applyExtensionDefaults,
    bundle := backfillBundle (bundleWithDefaults b.bundle) (applyExtensionDefaults e0) }

/-- Validation chain of `_initialize` after the mutation phase, in source
order: id, version, name, author, then `baseName` assignment, then products,
families and source-folder checks.  Returns the error (if any), the resulting
build state and the resulting regex state. -/
def initializeChecks (b1 : BuildState) (rs : RegexState) (sourceExists : Bool) :
    Option String × BuildState × RegexState :=
  match b1.bundle.id with
  | .str idS =>
    if idS.isEmpty then
      (some (msgInvalidField "id" (showJs b1.bundle.id) b1.name), b1, rs)
    else if (testG idMatches rs.idLast idS).1 = false then
      (some (msgInvalidField "id" (showJs b1.bundle.id) b1.name), b1,
        ⟨(testG idMatches rs.idLast idS).2, rs.verLast⟩)
    else
      match b1.bundle.version with
      | .str verS =>
        if verS.isEmpty then
          (some (msgInvalidField "version" (showJs b1.bundle.version) b1.name), b1,
            ⟨(testG idMatches rs.idLast idS).2, rs.verLast⟩)
        else if (testG versionMatches rs.verLast verS).1 = false then
          (some (msgInvalidField "version" (showJs b1.bundle.version) b1.name), b1,
            ⟨(testG idMatches rs.idLast idS).2, (testG versionMatches rs.verLast verS).2⟩)
        else if isNonemptyStr b1.bundle.name = false then
          (some (msgInvalidField "name" (showJs b1.bundle.name) b1.name), b1,
            ⟨(testG idMatches rs.idLast idS).2, (testG versionMatches rs.verLast verS).2⟩)
        else if isNonemptyStr b1.bundle.author = false then
          (some (msgInvalidField "author" (showJs b1.bundle.author) b1.name), b1,
            ⟨(testG idMatches rs.idLast idS).2, (testG versionMatches rs.verLast verS).2⟩)
        else if b1.products.length = 0 then
          (some (msgNoProducts b1.name), { b1 with baseName := computeBaseName idS },
            ⟨(testG idMatches rs.idLast idS).2, (testG versionMatches rs.verLast verS).2⟩)
        else if famLength b1.families = 0 then
          (some (msgNoFamilies b1.name), { b1 with baseName := computeBaseName idS },
            ⟨(testG idMatches rs.idLast idS).2, (testG versionMatches rs.verLast verS).2⟩)
        else if sourceExists = false then
          (some (msgInvalidSource b1.source b1.name),
            { b1 with baseName := computeBaseName idS },
            ⟨(testG idMatches rs.idLast idS).2, (testG versionMatches rs.verLast verS).2⟩)
        else
          (none, { b1 with baseName := computeBaseName idS },
            ⟨(testG idMatches rs.idLast idS).2, (testG versionMatches rs.verLast verS).2⟩)
      | _ =>
        (some (msgInvalidField "version" (showJs b1.bundle.version) b1.name), b1,
          ⟨(testG idMatches rs.idLast idS).2, rs.verLast⟩)
  | _ => (some (msgInvalidField "id" (showJs b1.bundle.id) b1.name), b1, rs)

/-- `Build.prototype._initialize` as a state transformer: empty-extensions
check, then the mutation phase, then the validation chain. -/
def initializeRun (b : BuildState) (rs : RegexState) (sourceExists : Bool) :
    Option String × BuildState × RegexState :=
  match b.extensions with
  | [] => (some "No extensions specified.", b, rs)
  | e0 :: _ => initializeChecks (initMutatedState b e0) rs sourceExists

/-- Template-literal append used by the debug branch of `compile`
(`` `${v}.debug` ``, `` `${v} (debug)` ``). -/
def jsTemplateAppend (v : JsField) (suffix : String) : JsField :=
  .str (showJs v ++ suffix)

/-- Debug transform applied by `compile` in debug mode: appends `.debug` to the
bundle id and every extension id, and ` (debug)` to the bundle name and every
extension name. -/
def applyDebugTransform (b : BuildState) : BuildState :=
  { b with
    bundle := { b.bundle with
      id := jsTemplateAppend b.bundle.id ".debug",
      name := jsTemplateAppend b.bundle.name " (debug)" },
    extensions := b.extensions.map (fun e =>
      { e with
        id := jsTemplateAppend e.id ".debug",
        name := jsTemplateAppend e.name " (debug)" }) }

/-- A fully valid build configuration used as concrete test input. -/
def buildValid : BuildState :=
  { name := "test", source := "src",
    bundle := { id := .str "com.test.bundle", version := .str "1.0.0",
                name := .str "Test", author := .str "Me" },
    extensions := [{ id := .str "com.test.ext", version := .str "1.0.0",
                     name := .str "Ext" }],
    products := ["photoshop"], families := .single "cc2015" }

example : (initializeRun buildValid {} true).1 = none := by decide

example : (initializeRun buildValid {} true).2.1.baseName = "com.test.bundle" := by decide

example : (initializeRun buildValid {} true).2.2 = { idLast := 15, verLast := 5 } := by decide

/-- C4 (code bug): validation is not idempotent.  The first `_initialize` on a
fully valid build succeeds, but because the module-level `bundleIdRegEx` has
the `g` flag, its `lastIndex` is left at the end of the previous successful
match, and the second `_initialize` on the unchanged build fails the bundle-id
test and throws. -/
theorem C4_second_initialize_fails :
    ((initializeRun buildValid {} true).1 = none) ∧
    ((initializeRun (initializeRun buildValid {} true).2.1
        (initializeRun buildValid {} true).2.2 true).1 =
      some (msgInvalidField "id" "com.test.bundle" "test")) := by decide

/-- Build that passes all bundle-field checks but declares no products. -/
def buildNoProducts : BuildState :=
  { name := "b5", source := "s",
    bundle := { id := .str "My.Bundle", version := .str "1.0.0",
                name := .str "N", author := .str "A" },
    extensions := [{}], products := [], families := .single "cc2015" }

/-- Build with an empty extensions list. -/
def buildNoExtensions : BuildState :=
  { name := "mybuild", source := "s",
    bundle := { id := .str "My.Bundle", version := .str "1.0.0",
                name := .str "N", author := .str "A" },
    extensions := [], products := ["photoshop"], families := .single "cc2015" }

/-- C5 counterexample: a failing `_initialize` (no products declared) leaves
the build mutated — the first extension has been defaulted and `baseName` has
been assigned — refuting atomicity of initialization. -/
theorem C5_counterexample :
    ((initializeRun buildNoProducts {} true).1 =
      some (msgNoProducts "b5")) ∧
    (initializeRun buildNoProducts {} true).2.1 ≠ buildNoProducts ∧
    (initializeRun buildNoProducts {} true).2.1.baseName = "my.bundle" := by decide

/-- The validation chain never changes the extension list or the bundle:
only `baseName`, the error slot and the regex state vary across its branches. -/
theorem initializeChecks_state (b1 : BuildState) (rs : RegexState) (e1 : Bool) :
    (initializeChecks b1 rs e1).2.1.extensions = b1.extensions ∧
    (initializeChecks b1 rs e1).2.1.bundle = b1.bundle := by
  unfold initializeChecks
  cases b1.bundle.id with
  | undefinedVal => exact ⟨rfl, rfl⟩
  | null => exact ⟨rfl, rfl⟩
  | str idS =>
    dsimp only
    by_cases h1 : idS.isEmpty = true
    · rw [if_pos h1]
      exact ⟨rfl, rfl⟩
    · rw [if_neg h1]
      by_cases h2 : (testG idMatches rs.idLast idS).1 = false
      · rw [if_pos h2]
        exact ⟨rfl, rfl⟩
      · rw [if_neg h2]
        cases b1.bundle.version with
        | undefinedVal => exact ⟨rfl, rfl⟩
        | null => exact ⟨rfl, rfl⟩
        | str verS =>
          dsimp only
          by_cases h3 : verS.isEmpty = true
          · rw [if_pos h3]
            exact ⟨rfl, rfl⟩
          · rw [if_neg h3]
            by_cases h4 : (testG versionMatches rs.verLast verS).1 = false
            · rw [if_pos h4]
              exact ⟨rfl, rfl⟩
            · rw [if_neg h4]
              by_cases h5 : isNonemptyStr b1.bundle.name = false
              · rw [if_pos h5]
                exact ⟨rfl, rfl⟩
              · rw [if_neg h5]
                by_cases h6 : isNonemptyStr b1.bundle.author = false
                · rw [if_pos h6]
                  exact ⟨rfl, rfl⟩
                · rw [if_neg h6]
                  by_cases h7 : b1.products.length = 0
                  · rw [if_pos h7]
                    exact ⟨rfl, rfl⟩
                  · rw [if_neg h7]
                    by_cases h8 : famLength b1.families = 0
                    · rw [if_pos h8]
                      exact ⟨rfl, rfl⟩
                    · rw [if_neg h8]
                      by_cases h9 : e1 = false
                      · rw [if_pos h9]
                        exact ⟨rfl, rfl⟩
                      · rw [if_neg h9]
                        exact ⟨rfl, rfl⟩

/-- C5 amended: only the empty-extensions failure leaves the build unchanged;
in every other outcome (success or failure) the pre-check mutations persist:
every extension is defaulted and the bundle is back-filled from the first
extension. -/
theorem C5_amended_mutation_boundary (b : BuildState) (rs : RegexState)
    (sourceExists : Bool) :
    (b.extensions = [] →
      initializeRun b rs sourceExists = (some "No extensions specified.", b, rs)) ∧
    (∀ e0 rest, b.extensions = e0 :: rest →
      (initializeRun b rs sourceExists).2.1.extensions =
        b.extensions.map applyExtensionDefaults ∧
      (initializeRun b rs sourceExists).2.1.bundle =
        backfillBundle (bundleWithDefaults b.bundle) (applyExtensionDefaults e0)) := by
  constructor
  · intro h
    simp only [initializeRun, h]
  · intro e0 rest h
    simp only [initializeRun, h]
    rw [(initializeChecks_state (initMutatedState b e0) rs sourceExists).1,
        (initializeChecks_state (initMutatedState b e0) rs sourceExists).2]
    simp [initMutatedState, h]

/-- Witness for C5's amended statement at the two concrete builds. -/
theorem C5_amended_witness :
    (buildNoExtensions.extensions = [] ∧
      initializeRun buildNoExtensions {} true =
        (some "No extensions specified.", buildNoExtensions, {})) ∧
    (buildNoProducts.extensions = ({} : Extension) :: [] ∧
      (initializeRun buildNoProducts {} true).2.1.extensions =
        buildNoProducts.extensions.map applyExtensionDefaults ∧
      (initializeRun buildNoProducts {} true).2.1.bundle =
        backfillBundle (bundleWithDefaults buildNoProducts.bundle)
          (applyExtensionDefaults {})) :=
  ⟨⟨rfl, (C5_amended_mutation_boundary buildNoExtensions {} true).1 rfl⟩,
   ⟨rfl, (C5_amended_mutation_boundary buildNoProducts {} true).2 {} [] rfl⟩⟩

/-- A non-empty string has `isEmpty = false`. -/
theorem isEmpty_false_of_ne {s : String} (h : s ≠ "") : s.isEmpty = false := by
  cases he : s.isEmpty
  · rfl
  · exact absurd ((String.isEmpty_iff s).mp he) h

/-- A string containing a space fails the bundle-id pattern. -/
theorem idMatches_false_of_space {s : String} (h : ' ' ∈ s.data) :
    idMatches s = false := by
  unfold idMatches
  have hall : s.data.all isIdChar = false :=
    List.all_eq_false.mpr ⟨' ', h, by decide⟩
  simp [hall]

/-- The bundle id survives the mutation phase when it is a non-empty string
(the back-fill customizer keeps non-empty strings). -/
theorem initMutated_bundle_id {b : BuildState} {e0 : Extension} {s : String}
    (h : b.bundle.id = .str s) (hs : s ≠ "") :
    (initMutatedState b e0).bundle.id = .str s := by
  have hmerge : ∀ x, mergeField (.str s) x = .str s := by
    intro x
    simp [mergeField, isNonemptyStr, isEmpty_false_of_ne hs]
  simp only [initMutatedState, backfillBundle, bundleWithDefaults, h, jsDefault]
  cases e0.id <;> simp [applyExtensionDefaults, jsDefault, hmerge]

/-- The bundle version survives the mutation phase when it is a non-empty
string. -/
theorem initMutated_bundle_version {b : BuildState} {e0 : Extension} {s : String}
    (h : b.bundle.version = .str s) (hs : s ≠ "") :
    (initMutatedState b e0).bundle.version = .str s := by
  have hmerge : ∀ x, mergeField (.str s) x = .str s := by
    intro x
    simp [mergeField, isNonemptyStr, isEmpty_false_of_ne hs]
  simp only [initMutatedState, backfillBundle, bundleWithDefaults, h, jsDefault]
  cases e0.version <;> simp [applyExtensionDefaults, jsDefault, hmerge]

/-- C6: validation rejects every configuration whose bundle id contains a space
(it cannot match `^[A-Za-z0-9._-]+$`) and every configuration whose bundle
version is the string `"1.a"`, whatever the regex state. -/
theorem C6_rejects_space_id_and_bad_version :
    (∀ s : String, ' ' ∈ s.data → idMatches s = false) ∧
    versionMatches "1.a" = false ∧
    (∀ (b : BuildState) (rs : RegexState) (srcE : Bool) (s : String),
      b.bundle.id = .str s → ' ' ∈ s.data →
      ((initializeRun b rs srcE).1).isSome = true) ∧
    (∀ (b : BuildState) (rs : RegexState) (srcE : Bool),
      b.bundle.version = .str "1.a" →
      ((initializeRun b rs srcE).1).isSome = true) := by
  refine ⟨fun s h => idMatches_false_of_space h, by decide, ?_, ?_⟩
  · intro b rs srcE s hid hsp
    have hs : s ≠ "" := by
      intro he
      subst he
      cases hsp
    cases hext : b.extensions with
    | nil => simp [initializeRun, hext]
    | cons e0 rest =>
      simp only [initializeRun, hext]
      have hbid := @initMutated_bundle_id _ e0 _ hid hs
      unfold initializeChecks
      rw [hbid]
      dsimp only
      rw [if_neg (by simp [isEmpty_false_of_ne hs])]
      have ht : (testG idMatches rs.idLast s).1 = false := by
        simp [testG, idMatches_false_of_space hsp]
      rw [if_pos ht]
      rfl
  · intro b rs srcE hver
    cases hext : b.extensions with
    | nil => simp [initializeRun, hext]
    | cons e0 rest =>
      simp only [initializeRun, hext]
      have hbver := @initMutated_bundle_version _ e0 _ hver (by decide)
      unfold initializeChecks
      cases hbid : (initMutatedState b e0).bundle.id with
      | undefinedVal => rfl
      | null => rfl
      | str idS =>
        dsimp only
        by_cases h1 : idS.isEmpty = true
        · rw [if_pos h1]
          rfl
        · rw [if_neg h1]
          by_cases h2 : (testG idMatches rs.idLast idS).1 = false
          · rw [if_pos h2]
            rfl
          · rw [if_neg h2]
            rw [hbver]
            dsimp only
            rw [if_neg (by decide)]
            have hv : (testG versionMatches rs.verLast "1.a").1 = false := by
              simp [testG, show versionMatches "1.a" = false from by decide]
            rw [if_pos hv]
            rfl

/-- Build used in the C6 witness: bundle id contains a space. -/
def buildSpaceId : BuildState :=
  { name := "b6", source := "s",
    bundle := { id := .str "my bundle", version := .str "1.0.0",
                name := .str "N", author := .str "A" },
    extensions := [{}], products := ["photoshop"], families := .single "cc2015" }

/-- Build used in the C6 witness: bundle version is `"1.a"`. -/
def buildBadVersion : BuildState :=
  { name := "b6v", source := "s",
    bundle := { id := .str "com.ok.id", version := .str "1.a",
                name := .str "N", author := .str "A" },
    extensions := [{}], products := ["photoshop"], families := .single "cc2015" }

/-- Witness for C6 at concrete invalid configurations. -/
theorem C6_witness :
    (buildSpaceId.bundle.id = .str "my bundle" ∧ ' ' ∈ "my bundle".data ∧
      ((initializeRun buildSpaceId {} true).1).isSome = true) ∧
    (buildBadVersion.bundle.version = .str "1.a" ∧
      ((initializeRun buildBadVersion {} true).1).isSome = true) :=
  ⟨⟨rfl, by decide,
      C6_rejects_space_id_and_bad_version.2.2.1 buildSpaceId {} true "my bundle" rfl (by decide)⟩,
   ⟨rfl, C6_rejects_space_id_and_bad_version.2.2.2 buildBadVersion {} true rfl⟩⟩

/-- Occurrence test for a character segment inside a character list. -/
def listContainsSeg (l n : List Char) : Bool :=
  match l with
  | [] => n.isEmpty
  | _ :: t => n.isPrefixOf l || listContainsSeg t n

theorem isPrefixOf_self_append (x b : List Char) : x.isPrefixOf (x ++ b) = true := by
  induction x with
  | nil => simp [List.isPrefixOf]
  | cons c t ih => simp [List.isPrefixOf, ih]

theorem listContainsSeg_append (a x b : List Char) :
    listContainsSeg (a ++ x ++ b) x = true := by
  induction a with
  | nil =>
    simp only [List.nil_append]
    cases hx : x ++ b with
    | nil =>
      have hxnil : x = [] := by
        cases x
        · rfl
        · simp at hx
      subst hxnil
      simp [listContainsSeg, List.isEmpty]
    | cons h t =>
      have hpre : x.isPrefixOf (x ++ b) = true := isPrefixOf_self_append x b
      rw [hx] at hpre
      simp [listContainsSeg, hpre]
  | cons c a0 ih =>
    simp only [List.cons_append, listContainsSeg, List.append_eq]
    rw [ih]
    simp

/-- Splitting a string as `pre ++ x ++ post` forces `x` to occur in it. -/
theorem containsSeg_of_split {m x : String}
    (h : ∃ pre post, m = pre ++ x ++ post) :
    listContainsSeg m.data x.data = true := by
  obtain ⟨pre, post, rfl⟩ := h
  have hdata : ((pre ++ x) ++ post).data = pre.data ++ x.data ++ post.data := by
    rw [String.data_append, String.data_append]
  rw [hdata]
  exact listContainsSeg_append pre.data x.data post.data

/-- C7 counterexample: the error raised for an empty extensions list is the
fixed message `No extensions specified.`, which does not mention the affected
build (here named `mybuild`). -/
theorem C7_counterexample :
    ((initializeRun buildNoExtensions {} true).1 = some "No extensions specified.") ∧
    ¬ ∃ pre post, "No extensions specified." = pre ++ "mybuild" ++ post := by
  refine ⟨by decide, ?_⟩
  intro hexists
  have h := containsSeg_of_split hexists
  revert h
  decide

/-- Every error of the validation chain embeds the build name. -/
theorem initializeChecks_error_mentions (b1 : BuildState) (rs : RegexState)
    (e1 : Bool) (m : String)
    (h : (initializeChecks b1 rs e1).1 = some m) :
    ∃ pre post, m = pre ++ b1.name ++ post := by
  unfold initializeChecks at h
  cases hbid : b1.bundle.id with
  | undefinedVal =>
    rw [hbid] at h
    dsimp only at h
    exact ⟨_, _, (Option.some.inj h).symm⟩
  | null =>
    rw [hbid] at h
    dsimp only at h
    exact ⟨_, _, (Option.some.inj h).symm⟩
  | str idS =>
    rw [hbid] at h
    dsimp only at h
    by_cases h1 : idS.isEmpty = true
    · rw [if_pos h1] at h
      exact ⟨_, _, (Option.some.inj h).symm⟩
    · rw [if_neg h1] at h
      by_cases h2 : (testG idMatches rs.idLast idS).1 = false
      · rw [if_pos h2] at h
        exact ⟨_, _, (Option.some.inj h).symm⟩
      · rw [if_neg h2] at h
        cases hbver : b1.bundle.version with
        | undefinedVal =>
          rw [hbver] at h
          dsimp only at h
          exact ⟨_, _, (Option.some.inj h).symm⟩
        | null =>
          rw [hbver] at h
          dsimp only at h
          exact ⟨_, _, (Option.some.inj h).symm⟩
        | str verS =>
          rw [hbver] at h
          dsimp only at h
          by_cases h3 : verS.isEmpty = true
          · rw [if_pos h3] at h
            exact ⟨_, _, (Option.some.inj h).symm⟩
          · rw [if_neg h3] at h
            by_cases h4 : (testG versionMatches rs.verLast verS).1 = false
            · rw [if_pos h4] at h
              exact ⟨_, _, (Option.some.inj h).symm⟩
            · rw [if_neg h4] at h
              by_cases h5 : isNonemptyStr b1.bundle.name = false
              · rw [if_pos h5] at h
                exact ⟨_, _, (Option.some.inj h).symm⟩
              · rw [if_neg h5] at h
                by_cases h6 : isNonemptyStr b1.bundle.author = false
                · rw [if_pos h6] at h
                  exact ⟨_, _, (Option.some.inj h).symm⟩
                · rw [if_neg h6] at h
                  by_cases h7 : b1.products.length = 0
                  · rw [if_pos h7] at h
                    exact ⟨_, _, (Option.some.inj h).symm⟩
                  · rw [if_neg h7] at h
                    by_cases h8 : famLength b1.families = 0
                    · rw [if_pos h8] at h
                      exact ⟨_, _, (Option.some.inj h).symm⟩
                    · rw [if_neg h8] at h
                      by_cases h9 : e1 = false
                      · rw [if_pos h9] at h
                        exact ⟨_, _, (Option.some.inj h).symm⟩
                      · rw [if_neg h9] at h
                        exact absurd h (by simp)

/-- C7 amended: every `_initialize` error either is the fixed empty-extensions
message `No extensions specified.` (which names no build) or embeds the name
of the affected build; the field is identified by the fixed surrounding text of
each message. -/
theorem C7_amended_error_messages (b : BuildState) (rs : RegexState)
    (srcE : Bool) (m : String)
    (h : (initializeRun b rs srcE).1 = some m) :
    m = "No extensions specified." ∨ ∃ pre post, m = pre ++ b.name ++ post := by
  cases hext : b.extensions with
  | nil =>
    left
    simp only [initializeRun, hext] at h
    exact (Option.some.inj h).symm
  | cons e0 rest =>
    right
    simp only [initializeRun, hext] at h
    have hname : (initMutatedState b e0).name = b.name := rfl
    have := initializeChecks_error_mentions (initMutatedState b e0) rs srcE m h
    rwa [hname] at this

/-- Witness for C7's amended statement at the products-less build `b5`. -/
theorem C7_amended_witness :
    ((initializeRun buildNoProducts {} true).1 = some (msgNoProducts "b5")) ∧
    (msgNoProducts "b5" = "No extensions specified." ∨
      ∃ pre post, msgNoProducts "b5" = pre ++ buildNoProducts.name ++ post) :=
  ⟨by decide,
    C7_amended_error_messages buildNoProducts {} true (msgNoProducts "b5") (by decide)⟩

/-- Appending the fixed debug suffix preserves the bundle-id pattern. -/
theorem idMatches_append_debug {s : String} (h : idMatches s = true) :
    idMatches (s ++ ".debug") = true := by
  unfold idMatches at h ⊢
  rw [Bool.and_eq_true] at h
  have hne : (s ++ ".debug") ≠ "" := by
    intro he
    have hd : (s ++ ".debug").data = [] := by rw [he]
    rw [String.data_append] at hd
    simp at hd
  rw [Bool.and_eq_true]
  constructor
  · simp [isEmpty_false_of_ne hne]
  · rw [String.data_append, List.all_append]
    have hdbg : (".debug" : String).data.all isIdChar = true := by decide
    simp [h.2, hdbg]

/-- C8: for every bundle or extension id matching `^[A-Za-z0-9._-]+$`, the
debug transform appends the fixed suffix `.debug` and the result still matches
the pattern, so re-validating a transformed id never fails the pattern check. -/
theorem C8_debug_transform_preserves_pattern :
    (∀ s : String, idMatches s = true → idMatches (s ++ ".debug") = true) ∧
    (∀ (b : BuildState) (s : String), b.bundle.id = .str s → idMatches s = true →
      (applyDebugTransform b).bundle.id = .str (s ++ ".debug") ∧
      idMatches (s ++ ".debug") = true) ∧
    (∀ (b : BuildState) (e : Extension) (s : String),
      e ∈ b.extensions → e.id = .str s → idMatches s = true →
      ∃ e2 ∈ (applyDebugTransform b).extensions,
        e2.id = .str (s ++ ".debug") ∧ idMatches (s ++ ".debug") = true) := by
  refine ⟨fun s h => idMatches_append_debug h, ?_, ?_⟩
  · intro b s hid h
    refine ⟨?_, idMatches_append_debug h⟩
    simp [applyDebugTransform, jsTemplateAppend, hid, showJs]
  · intro b e s hmem hid h
    have hmem2 :
        ({ e with
            id := jsTemplateAppend e.id ".debug"
            name := jsTemplateAppend e.name " (debug)" } : Extension) ∈
          (applyDebugTransform b).extensions := by
      simp only [applyDebugTransform]
      exact List.mem_map_of_mem _ hmem
    exact ⟨_, hmem2, by simp [jsTemplateAppend, hid, showJs], idMatches_append_debug h⟩

/-- Witness for C8 at the valid build's bundle id. -/
theorem C8_witness :
    (buildValid.bundle.id = .str "com.test.bundle" ∧
      idMatches "com.test.bundle" = true) ∧
    (applyDebugTransform buildValid).bundle.id = .str ("com.test.bundle" ++ ".debug") ∧
    idMatches ("com.test.bundle" ++ ".debug") = true :=
  ⟨⟨rfl, by decide⟩,
    C8_debug_transform_preserves_pattern.2.1 buildValid "com.test.bundle" rfl (by decide)⟩

/-- A JavaScript accumulator value of `generateMXI`: the initial `null`, a
number, or `undefined` (the value `getVersionRange` yields on an empty family
list). -/
inductive JsMaybe where
  | null
  | undefinedVal
  | num (n : Nat)
deriving DecidableEq, Repr

/-- Per-product accumulator of `generateMXI` (`targets[product]`):
`minFamily = targetFamilies[0]`, and the accumulated version `min`/`max`. -/
structure MxiTarget where
  minFamily : Option String
  vmin : JsMaybe
  vmax : JsMaybe
deriving DecidableEq, Repr

/-- The per-build data `generateMXI` reads. -/
structure BuildInfo where
  products : List String
  families : FamilySet
  outputFile : String
deriving DecidableEq, Repr

/-- `targetFamilies = supportsFamilyRange ? build.families : [build.families]`. -/
def famList : FamilySet → List String
  | .single s => [s]
  | .multi l => l

/-- `Array.isArray(build.families)`. -/
def isRangeMode : FamilySet → Bool
  | .single _ => false
  | .multi _ => true

def jsOfOpt : Option Nat → JsMaybe
  | some v => .num v
  | none => .undefinedVal

/-- `if (version.min === null || range.min < version.min) version.min = range.min`
(numeric comparisons against `undefined` are false). -/
def mxiUpdMin (cur : JsMaybe) (r : Option Nat) : JsMaybe :=
  match cur with
  | .null => jsOfOpt r
  | .num c =>
    match r with
    | some v => if v < c then .num v else .num c
    | none => .num c
  | .undefinedVal => .undefinedVal

/-- `if (version.max === null || range.max > version.max) version.max = range.max`. -/
def mxiUpdMax (cur : JsMaybe) (r : Option Nat) : JsMaybe :=
  match cur with
  | .null => jsOfOpt r
  | .num c =>
    match r with
    | some v => if c < v then .num v else .num c
    | none => .num c
  | .undefinedVal => .undefinedVal

/-- One iteration of the inner loop of `generateMXI` on the accumulator of the
current product: always fold the range minimum; fold the maximum only when the
contributing build is in range mode. -/
def mxiApplyRange (supportsRange : Bool) (range : Option Nat × Option Nat)
    (t : MxiTarget) : MxiTarget :=
  { minFamily := t.minFamily,
    vmin := mxiUpdMin t.vmin range.1,
    vmax := if supportsRange then mxiUpdMax t.vmax range.2 else t.vmax }

/-- In-place update of the entry stored under key `k`. -/
def assocUpdate (l : List (String × MxiTarget)) (k : String)
    (f : MxiTarget → MxiTarget) : List (String × MxiTarget) :=
  l.map (fun kv => if kv.1 = k then (kv.1, f kv.2) else kv)

/-- Processing of one `(build, product)` pair by `generateMXI`: create the
product's entry if absent (`minFamily = targetFamilies[0]`, `min`/`max`
`null`), then fold this build's resolved range into it.  A `getVersionRange`
failure propagates. -/
def mxiAddProduct (supportsRange : Bool) (tf : List String)
    (targets : List (String × MxiTarget)) (p : String) :
    Except String (List (String × MxiTarget)) :=
  match getVersionRange p tf with
  | .error e => .error e
  | .ok range =>
    .ok (assocUpdate
      (if (targets.lookup p).isSome then targets
       else targets ++ [(p, ⟨tf.head?, .null, .null⟩)])
      p (mxiApplyRange supportsRange range))

def mxiAddProducts (supportsRange : Bool) (tf : List String) :
    List (String × MxiTarget) → List String → Except String (List (String × MxiTarget))
  | targets, [] => .ok targets
  | targets, p :: rest =>
    match mxiAddProduct supportsRange tf targets p with
    | .error e => .error e
    | .ok t2 => mxiAddProducts supportsRange tf t2 rest

def mxiTargetsGo :
    List (String × MxiTarget) → List BuildInfo → Except String (List (String × MxiTarget))
  | targets, [] => .ok targets
  | targets, b :: rest =>
    match mxiAddProducts (isRangeMode b.families) (famList b.families) targets b.products with
    | .error e => .error e
    | .ok t2 => mxiTargetsGo t2 rest

/-- The per-product version accumulation of `generateMXI` (template.js,
lines 184-221), in build/product iteration order. -/
def mxiTargets (builds : List BuildInfo) : Except String (List (String × MxiTarget)) :=
  mxiTargetsGo [] builds

/-- `v.toFixed(1)` on an accumulator value; `null`/`undefined` raise. -/
def jsToFixedJ : JsMaybe → Except String String
  | .num n => .ok (fmtTenths n)
  | _ => .error "TypeError: toFixed is not a function on null or undefined"

/-- `<file>` entry template without the `maxVersion` attribute. -/
def fileEntryNoMax (fam mn srcFile : String) : String :=
  "<file products=\"" ++ fam ++ "\" minVersion=\"" ++ mn ++
    "\" source=\"" ++ srcFile ++ "\" destination=\"\" file-type=\"CSXS\" />"

/-- `<file>` entry template with the `maxVersion` attribute. -/
def fileEntryWithMax (fam mn mxs srcFile : String) : String :=
  "<file products=\"" ++ fam ++ "\" minVersion=\"" ++ mn ++
    "\" maxVersion=\"" ++ mxs ++ "\" source=\"" ++ srcFile ++
    "\" destination=\"\" file-type=\"CSXS\" />"

/-- `<product>` entry template without the `maxversion` attribute; the first
argument selects the `familyname` (legacy) or `name` attribute. -/
def productEntryNoMax (useFamilyAttr : Bool) (fn mn : String) : String :=
  if useFamilyAttr then
    "<product familyname=\"" ++ fn ++ "\" version=\"" ++ mn ++ "\" primary=\"true\" />"
  else
    "<product name=\"" ++ fn ++ "\" version=\"" ++ mn ++ "\" primary=\"true\" />"

/-- `<product>` entry template with the `maxversion` attribute. -/
def productEntryWithMax (useFamilyAttr : Bool) (fn mn mxs : String) : String :=
  if useFamilyAttr then
    "<product familyname=\"" ++ fn ++ "\" version=\"" ++ mn ++
      "\" maxversion=\"" ++ mxs ++ "\" primary=\"true\" />"
  else
    "<product name=\"" ++ fn ++ "\" version=\"" ++ mn ++
      "\" maxversion=\"" ++ mxs ++ "\" primary=\"true\" />"

/-- One `<file>` entry of the aggregate descriptor (template.js, lines
231-238): the `maxVersion` attribute is present exactly when the accumulated
`version.max` is not `null`. -/
def mxiFileEntry (p : String) (outFile : String) (t : MxiTarget) :
    Except String String :=
  match t.vmax with
  | .null =>
    match mapToFamilyName p with
    | .error e => .error e
    | .ok fam =>
      match jsToFixedJ t.vmin with
      | .error e => .error e
      | .ok mn => .ok (fileEntryNoMax fam mn outFile)
  | mx =>
    match mapToFamilyName p with
    | .error e => .error e
    | .ok fam =>
      match jsToFixedJ t.vmin with
      | .error e => .error e
      | .ok mn =>
        match jsToFixedJ mx with
        | .error e => .error e
        | .ok mxs => .ok (fileEntryWithMax fam mn mxs outFile)

def mxiFileEntriesFor (targets : List (String × MxiTarget)) (outFile : String) :
    List String → Except String (List String)
  | [] => .ok []
  | p :: rest =>
    match targets.lookup p with
    | none => .error "TypeError: cannot read version of undefined"
    | some t =>
      match mxiFileEntry p outFile t with
      | .error e => .error e
      | .ok entry =>
        match mxiFileEntriesFor targets outFile rest with
        | .error e => .error e
        | .ok tail => .ok (entry :: tail)

/-- The `<FileList>` list of `generateMXI`: one entry per (build, product)
pair, in iteration order. -/
def mxiFileList (targets : List (String × MxiTarget)) :
    List BuildInfo → Except String (List String)
  | [] => .ok []
  | b :: rest =>
    match mxiFileEntriesFor targets b.outputFile b.products with
    | .error e => .error e
    | .ok entries =>
      match mxiFileList targets rest with
      | .error e => .error e
      | .ok tail => .ok (entries ++ tail)

/-- Products whose `<product>` entry must use the `familyname` attribute. -/
def familyNameProducts : List String :=
  ["illustrator", "incopy", "indesign", "photoshop"]

/-- One `<product>` entry of the aggregate descriptor (template.js, lines
247-274). -/
def mxiProductEntry (p : String) (t : MxiTarget) : Except String String :=
  match t.vmax with
  | .null =>
    match getProductJ p t.minFamily with
    | .error e => .error e
    | .ok r =>
      match jsToFixedJ t.vmin with
      | .error e => .error e
      | .ok mn =>
        .ok (productEntryNoMax (familyNameProducts.contains p) r.familyname mn)
  | mx =>
    match getProductJ p t.minFamily with
    | .error e => .error e
    | .ok r =>
      match jsToFixedJ t.vmin with
      | .error e => .error e
      | .ok mn =>
        match jsToFixedJ mx with
        | .error e => .error e
        | .ok mxs =>
          .ok (productEntryWithMax (familyNameProducts.contains p) r.familyname mn mxs)

/-- The `<product>` list of `generateMXI`, in first-seen product order. -/
def mxiProductList : List (String × MxiTarget) → Except String (List String)
  | [] => .ok []
  | kv :: rest =>
    match mxiProductEntry kv.1 kv.2 with
    | .error e => .error e
    | .ok entry =>
      match mxiProductList rest with
      | .error e => .error e
      | .ok tail => .ok (entry :: tail)

example :
    mxiTargets
      [⟨["photoshop"], .single "cc2015", "a.zxp"⟩,
       ⟨["photoshop"], .multi ["cc2014", "cc2015"], "b.zxp"⟩] =
    .ok [("photoshop", ⟨some "cc2015", .num 150, .num 169⟩)] := by decide

/-- Pure view of `getVersionRange`, defaulting errors (never hit under the
validity hypotheses used below). -/
def rangeOf (p : String) (tf : List String) : Option Nat × Option Nat :=
  match getVersionRange p tf with
  | .ok r => r
  | .error _ => (none, none)

/-- The resolved minimum a build contributes for product `p`. -/
def resolvedMin (p : String) (b : BuildInfo) : Option Nat :=
  (rangeOf p (famList b.families)).1

/-- The resolved maximum a build contributes for product `p`. -/
def resolvedMax (p : String) (b : BuildInfo) : Option Nat :=
  (rangeOf p (famList b.families)).2

/-- The (range-mode flag, target-family list) contributions made to product
`p`, in iteration order of `generateMXI`. -/
def pContribs (p : String) (builds : List BuildInfo) : List (Bool × List String) :=
  builds.flatMap (fun b => b.products.filterMap (fun q =>
    if q = p then some (isRangeMode b.families, famList b.families) else none))

/-- Pure single-product replay of the accumulation `generateMXI` performs. -/
def pFoldPure (p : String) :
    Option MxiTarget → List (Bool × List String) → Option MxiTarget
  | acc, [] => acc
  | acc, c :: rest =>
    pFoldPure p
      (some (mxiApplyRange c.1 (rangeOf p c.2) (acc.getD ⟨c.2.head?, .null, .null⟩)))
      rest

def foldMinN (a : Nat) (l : List Nat) : Nat := l.foldl Nat.min a

def foldMaxN (a : Nat) (l : List Nat) : Nat := l.foldl Nat.max a

/-- The minima contributed to product `p` by a contribution list. -/
def minsOf (p : String) (occs : List (Bool × List String)) : List Nat :=
  occs.map (fun c => ((rangeOf p c.2).1).getD 0)

/-- The maxima contributed by the range-mode members of a contribution list. -/
def srMaxesOf (p : String) (occs : List (Bool × List String)) : List Nat :=
  (occs.filter (fun c => c.1)).map (fun c => ((rangeOf p c.2).2).getD 0)

/-- Value of the `version.max` accumulator after folding the listed range-mode
maxima into the state `v`. -/
def maxState (v : JsMaybe) (xs : List Nat) : JsMaybe :=
  match v, xs with
  | .null, [] => .null
  | .null, x :: rest => .num (foldMaxN x rest)
  | .num b, rest => .num (foldMaxN b rest)
  | .undefinedVal, _ => .undefinedVal

theorem foldMinN_le (a : Nat) (l : List Nat) :
    foldMinN a l ≤ a ∧ ∀ x ∈ l, foldMinN a l ≤ x := by
  induction l generalizing a with
  | nil => simp [foldMinN]
  | cons hd tl ih =>
    obtain ⟨h1, h2⟩ := ih (Nat.min a hd)
    refine ⟨le_trans h1 (Nat.min_le_left _ _), ?_⟩
    intro x hx
    rcases List.mem_cons.mp hx with heq | htl
    · subst heq
      exact le_trans h1 (Nat.min_le_right _ _)
    · exact h2 x htl

theorem foldMinN_attained (a : Nat) (l : List Nat) :
    foldMinN a l = a ∨ foldMinN a l ∈ l := by
  induction l generalizing a with
  | nil => simp [foldMinN]
  | cons hd tl ih =>
    rcases ih (Nat.min a hd) with h | h
    · rw [foldMinN, List.foldl_cons] at *
      rw [h]
      rcases Nat.le_total a hd with hle | hle
      · exact Or.inl (Nat.min_eq_left hle)
      · exact Or.inr (by simp [Nat.min_eq_right hle])
    · exact Or.inr (by simp [foldMinN, List.foldl_cons]; right; exact h)

theorem foldMaxN_ge (a : Nat) (l : List Nat) :
    a ≤ foldMaxN a l ∧ ∀ x ∈ l, x ≤ foldMaxN a l := by
  induction l generalizing a with
  | nil => simp [foldMaxN]
  | cons hd tl ih =>
    obtain ⟨h1, h2⟩ := ih (Nat.max a hd)
    refine ⟨le_trans (Nat.le_max_left _ _) h1, ?_⟩
    intro x hx
    rcases List.mem_cons.mp hx with heq | htl
    · subst heq
      exact le_trans (Nat.le_max_right _ _) h1
    · exact h2 x htl

theorem foldMaxN_attained (a : Nat) (l : List Nat) :
    foldMaxN a l = a ∨ foldMaxN a l ∈ l := by
  induction l generalizing a with
  | nil => simp [foldMaxN]
  | cons hd tl ih =>
    rcases ih (Nat.max a hd) with h | h
    · rw [foldMaxN, List.foldl_cons] at *
      rw [h]
      rcases Nat.le_total a hd with hle | hle
      · exact Or.inr (by simp [Nat.max_eq_right hle])
      · exact Or.inl (Nat.max_eq_left hle)
    · exact Or.inr (by simp [foldMaxN, List.foldl_cons]; right; exact h)

theorem lookup_append {β : Type} (l1 l2 : List (String × β)) (p : String) :
    (l1 ++ l2).lookup p =
      match l1.lookup p with
      | some v => some v
      | none => l2.lookup p := by
  induction l1 with
  | nil => simp [List.lookup]
  | cons hd tl ih =>
    rw [List.cons_append, List.lookup, List.lookup]
    by_cases hk : p == hd.1
    · simp [hk]
    · simp [hk, ih]

theorem lookup_assocUpdate_ne {l : List (String × MxiTarget)} {q p : String}
    (f : MxiTarget → MxiTarget) (h : p ≠ q) :
    (assocUpdate l q f).lookup p = l.lookup p := by
  induction l with
  | nil => rfl
  | cons hd tl ih =>
    simp only [assocUpdate, List.map_cons]
    by_cases hq : hd.1 = q
    · rw [if_pos hq, List.lookup, List.lookup]
      have : (p == hd.1) = false := by
        simp [hq]
        exact h
      simp only [this]
      exact ih
    · rw [if_neg hq, List.lookup, List.lookup]
      by_cases hp : p == hd.1
      · simp [hp]
      · simp only [hp]
        exact ih

theorem lookup_assocUpdate_eq {l : List (String × MxiTarget)} {q : String}
    (f : MxiTarget → MxiTarget) :
    (assocUpdate l q f).lookup q = (l.lookup q).map f := by
  induction l with
  | nil => rfl
  | cons hd tl ih =>
    simp only [assocUpdate, List.map_cons]
    by_cases hq : hd.1 = q
    · rw [if_pos hq, List.lookup, List.lookup]
      have : (q == hd.1) = true := by simp [hq]
      simp [this]
    · rw [if_neg hq, List.lookup, List.lookup]
      have : (q == hd.1) = false := by
        simp
        exact fun he => hq he.symm
      simp only [this]
      exact ih

theorem assocUpdate_keys (l : List (String × MxiTarget)) (q : String)
    (f : MxiTarget → MxiTarget) :
    (assocUpdate l q f).map Prod.fst = l.map Prod.fst := by
  induction l with
  | nil => rfl
  | cons hd tl ih =>
    simp only [assocUpdate, List.map_cons] at *
    by_cases hq : hd.1 = q
    · simp [hq, ih]
    · simp [hq, ih]

theorem lookup_isSome_key {β : Type} (l : List (String × β)) (k : String) :
    (l.lookup k).isSome = true ↔ k ∈ l.map Prod.fst := by
  induction l with
  | nil => simp [List.lookup]
  | cons hd tl ih =>
    rw [List.lookup]
    by_cases hk : k == hd.1
    · have : k = hd.1 := by simpa using hk
      simp [hk, this]
    · have : ¬ k = hd.1 := by simpa using hk
      simp [hk, this, ih]

theorem lookup_of_mem_nodup {l : List (String × MxiTarget)} {p : String}
    {t : MxiTarget} (hmem : (p, t) ∈ l) (hnd : (l.map Prod.fst).Nodup) :
    l.lookup p = some t := by
  induction l with
  | nil => exact absurd hmem (by simp)
  | cons hd tl ihl =>
    rw [List.map_cons] at hnd
    rw [List.nodup_cons] at hnd
    rcases List.mem_cons.mp hmem with heq | htl
    · rw [← heq, List.lookup]
      simp
    · rw [List.lookup]
      have hne : ¬ p = hd.1 := by
        intro he
        exact hnd.1 (he ▸ (List.mem_map_of_mem Prod.fst htl))
      have : (p == hd.1) = false := by simpa using hne
      simp only [this]
      exact ihl htl hnd.2

theorem pFoldPure_append (p : String) (acc : Option MxiTarget)
    (l1 l2 : List (Bool × List String)) :
    pFoldPure p acc (l1 ++ l2) = pFoldPure p (pFoldPure p acc l1) l2 := by
  induction l1 generalizing acc with
  | nil => rfl
  | cons c rest ih => rw [List.cons_append, pFoldPure, pFoldPure, ih]

/-- Effect of the inner product loop of `generateMXI` on each key of the
target map. -/
theorem mxiAddProducts_lookup (sr : Bool) (tf : List String) (ps : List String)
    (targets : List (String × MxiTarget))
    (hval : ∀ p ∈ ps, ∃ range, getVersionRange p tf = .ok range) :
    ∃ ts2, mxiAddProducts sr tf targets ps = .ok ts2 ∧
      (∀ p, ts2.lookup p = pFoldPure p (targets.lookup p)
        (ps.filterMap (fun q => if q = p then some (sr, tf) else none))) ∧
      ((targets.map Prod.fst).Nodup → (ts2.map Prod.fst).Nodup) := by
  induction ps generalizing targets with
  | nil => exact ⟨targets, rfl, fun p => rfl, id⟩
  | cons q rest ih =>
    obtain ⟨range, hr⟩ := hval q (by simp)
    have hrange : rangeOf q tf = range := by
      unfold rangeOf
      rw [hr]
    have hstep : mxiAddProduct sr tf targets q =
        .ok (assocUpdate
          (if (targets.lookup q).isSome then targets
           else targets ++ [(q, ⟨tf.head?, .null, .null⟩)])
          q (mxiApplyRange sr range)) := by
      unfold mxiAddProduct
      rw [hr]
    obtain ⟨ts2, hts2, hlook, hnd⟩ := ih
      (assocUpdate
        (if (targets.lookup q).isSome then targets
         else targets ++ [(q, ⟨tf.head?, .null, .null⟩)])
        q (mxiApplyRange sr range))
      (fun p hp => hval p (by simp [hp]))
    refine ⟨ts2, ?_, ?_, ?_⟩
    · rw [mxiAddProducts, hstep]
      exact hts2
    · intro p
      by_cases hpq : p = q
      · subst hpq
        rw [hlook p]
        have h1 : (assocUpdate
            (if (targets.lookup p).isSome then targets
             else targets ++ [(p, ⟨tf.head?, .null, .null⟩)])
            p (mxiApplyRange sr range)).lookup p =
            some (mxiApplyRange sr range
              ((targets.lookup p).getD ⟨tf.head?, .null, .null⟩)) := by
          rw [lookup_assocUpdate_eq]
          by_cases hS : (targets.lookup p).isSome
          · obtain ⟨t0, ht0⟩ := Option.isSome_iff_exists.mp hS
            rw [if_pos hS, ht0]
            rfl
          · rw [if_neg hS]
            have hnone : targets.lookup p = none := Option.not_isSome_iff_eq_none.mp hS
            rw [lookup_append, hnone]
            simp [List.lookup]
        rw [h1]
        have h2 : (p :: rest).filterMap
            (fun q2 => if q2 = p then some (sr, tf) else none) =
            (sr, tf) :: rest.filterMap (fun q2 => if q2 = p then some (sr, tf) else none) := by
          simp
        rw [h2, pFoldPure, hrange]
      · rw [hlook p]
        have h1 : (assocUpdate
            (if (targets.lookup q).isSome then targets
             else targets ++ [(q, ⟨tf.head?, .null, .null⟩)])
            q (mxiApplyRange sr range)).lookup p = targets.lookup p := by
          rw [lookup_assocUpdate_ne _ hpq]
          by_cases hS : (targets.lookup q).isSome
          · rw [if_pos hS]
          · rw [if_neg hS, lookup_append]
            have : ([(q, (⟨tf.head?, .null, .null⟩ : MxiTarget))].lookup p) = none := by
              rw [List.lookup]
              have : (p == q) = false := by simpa using hpq
              simp [this, List.lookup]
            rw [this]
            cases targets.lookup p <;> rfl
        rw [h1]
        have h2 : (q :: rest).filterMap
            (fun q2 => if q2 = p then some (sr, tf) else none) =
            rest.filterMap (fun q2 => if q2 = p then some (sr, tf) else none) := by
          have : ¬ q = p := fun he => hpq he.symm
          simp [this]
        rw [h2]
    · intro hndt
      apply hnd
      rw [assocUpdate_keys]
      by_cases hS : (targets.lookup q).isSome
      · rw [if_pos hS]
        exact hndt
      · rw [if_neg hS]
        have hq : q ∉ targets.map Prod.fst := by
          intro hmem
          exact hS ((lookup_isSome_key targets q).mpr hmem)
        simp [List.nodup_append, hndt, hq]

/-- Effect of the full accumulation loop of `generateMXI` on each key. -/
theorem mxiTargetsGo_lookup (builds : List BuildInfo)
    (targets : List (String × MxiTarget))
    (hval : ∀ b ∈ builds, ∀ p ∈ b.products, ∃ range,
      getVersionRange p (famList b.families) = .ok range) :
    ∃ ts, mxiTargetsGo targets builds = .ok ts ∧
      (∀ p, ts.lookup p = pFoldPure p (targets.lookup p) (pContribs p builds)) ∧
      ((targets.map Prod.fst).Nodup → (ts.map Prod.fst).Nodup) := by
  induction builds generalizing targets with
  | nil => exact ⟨targets, rfl, fun p => rfl, id⟩
  | cons b rest ih =>
    obtain ⟨ts1, hts1, hlook1, hnd1⟩ :=
      mxiAddProducts_lookup (isRangeMode b.families) (famList b.families)
        b.products targets (fun p hp => hval b (by simp) p hp)
    obtain ⟨ts2, hts2, hlook2, hnd2⟩ := ih ts1
      (fun b2 hb2 p hp => hval b2 (by simp [hb2]) p hp)
    refine ⟨ts2, ?_, ?_, fun h => hnd2 (hnd1 h)⟩
    · rw [mxiTargetsGo, hts1]
      exact hts2
    · intro p
      rw [hlook2 p, hlook1 p]
      have hc : pContribs p (b :: rest) =
          (b.products.filterMap (fun q =>
            if q = p then some (isRangeMode b.families, famList b.families) else none)) ++
          pContribs p rest := by
        simp [pContribs]
      rw [hc, pFoldPure_append]

theorem mxiUpdMin_num (a v : Nat) :
    mxiUpdMin (.num a) (some v) = .num (Nat.min a v) := by
  unfold mxiUpdMin
  dsimp only
  rcases Nat.lt_or_ge v a with h | h
  · rw [if_pos h]
    exact congrArg JsMaybe.num (Nat.min_eq_right (le_of_lt h)).symm
  · rw [if_neg (Nat.not_lt.mpr h)]
    exact congrArg JsMaybe.num (Nat.min_eq_left h).symm

theorem mxiUpdMax_num (a v : Nat) :
    mxiUpdMax (.num a) (some v) = .num (Nat.max a v) := by
  unfold mxiUpdMax
  dsimp only
  rcases Nat.lt_or_ge a v with h | h
  · rw [if_pos h]
    exact congrArg JsMaybe.num (Nat.max_eq_right (le_of_lt h)).symm
  · rw [if_neg (Nat.not_lt.mpr h)]
    exact congrArg JsMaybe.num (Nat.max_eq_left h).symm

theorem maxState_step (v : JsMaybe) (mx : Nat) (xs : List Nat) :
    maxState v (mx :: xs) = maxState (mxiUpdMax v (some mx)) xs := by
  cases v with
  | null => rfl
  | undefinedVal => rfl
  | num b => rw [mxiUpdMax_num]; rfl

/-- Closed form of the single-product replay from a numeric accumulator. -/
theorem pFoldPure_char (p : String) (occs : List (Bool × List String))
    (hocc : ∀ c ∈ occs, ∃ mn mx, getVersionRange p c.2 = .ok (some mn, some mx)) :
    ∀ (mf : Option String) (a : Nat) (v : JsMaybe),
      pFoldPure p (some ⟨mf, .num a, v⟩) occs =
        some ⟨mf, .num (foldMinN a (minsOf p occs)), maxState v (srMaxesOf p occs)⟩ := by
  induction occs with
  | nil =>
    intro mf a v
    cases v <;> rfl
  | cons c rest ih =>
    intro mf a v
    obtain ⟨mn, mx, hr⟩ := hocc c (by simp)
    have hrange : rangeOf p c.2 = (some mn, some mx) := by
      unfold rangeOf
      rw [hr]
    rw [pFoldPure]
    have happ : mxiApplyRange c.1 (rangeOf p c.2)
        ((some (⟨mf, .num a, v⟩ : MxiTarget)).getD ⟨c.2.head?, .null, .null⟩) =
        ⟨mf, .num (Nat.min a mn), if c.1 then mxiUpdMax v (some mx) else v⟩ := by
      rw [hrange]
      simp [mxiApplyRange, mxiUpdMin_num]
    rw [happ]
    have hmins : minsOf p (c :: rest) = mn :: minsOf p rest := by
      simp [minsOf, hrange]
    have hfold : foldMinN a (mn :: minsOf p rest) = foldMinN (Nat.min a mn) (minsOf p rest) := rfl
    cases hc : c.1 with
    | true =>
      have hsr : srMaxesOf p (c :: rest) = mx :: srMaxesOf p rest := by
        simp [srMaxesOf, hc, hrange]
      rw [if_pos rfl, ih (fun c2 h2 => hocc c2 (by simp [h2])), hmins, hfold, hsr,
        maxState_step]
    | false =>
      have hsr : srMaxesOf p (c :: rest) = srMaxesOf p rest := by
        simp [srMaxesOf, hc]
      rw [if_neg (by simp), ih (fun c2 h2 => hocc c2 (by simp [h2])), hmins, hfold, hsr]

/-- Closed form of the single-product replay from the absent (`null`-seeded)
state: `minFamily` is the first contribution's first family, `min` is seeded by
the first contribution, and `max` folds the range-mode maxima. -/
theorem pFoldPure_none (p : String) (c : Bool × List String)
    (rest : List (Bool × List String))
    (hocc : ∀ c2 ∈ (c :: rest), ∃ mn mx, getVersionRange p c2.2 = .ok (some mn, some mx)) :
    ∃ mn mx, getVersionRange p c.2 = .ok (some mn, some mx) ∧
      pFoldPure p none (c :: rest) =
        some ⟨c.2.head?, .num (foldMinN mn (minsOf p rest)),
              maxState .null (srMaxesOf p (c :: rest))⟩ := by
  obtain ⟨mn, mx, hr⟩ := hocc c (by simp)
  have hrange : rangeOf p c.2 = (some mn, some mx) := by
    unfold rangeOf
    rw [hr]
  refine ⟨mn, mx, hr, ?_⟩
  rw [pFoldPure]
  have happ : mxiApplyRange c.1 (rangeOf p c.2)
      ((none : Option MxiTarget).getD ⟨c.2.head?, .null, .null⟩) =
      ⟨c.2.head?, .num mn, if c.1 then .num mx else .null⟩ := by
    rw [hrange]
    cases c.1 <;> simp [mxiApplyRange, mxiUpdMin, mxiUpdMax, jsOfOpt]
  rw [happ]
  rw [pFoldPure_char p rest (fun c2 h2 => hocc c2 (by simp [h2]))]
  cases hc : c.1 with
  | true =>
    have hsr : srMaxesOf p (c :: rest) = mx :: srMaxesOf p rest := by
      simp [srMaxesOf, hc, hrange]
    rw [hsr, maxState_step]
    rfl
  | false =>
    have hsr : srMaxesOf p (c :: rest) = srMaxesOf p rest := by
      simp [srMaxesOf, hc]
    rw [hsr]
    simp

theorem pContribs_mem {p : String} {builds : List BuildInfo}
    {c : Bool × List String} :
    c ∈ pContribs p builds ↔
      ∃ b ∈ builds, p ∈ b.products ∧
        c = (isRangeMode b.families, famList b.families) := by
  unfold pContribs
  rw [List.mem_flatMap]
  constructor
  · rintro ⟨b, hb, hc⟩
    rw [List.mem_filterMap] at hc
    obtain ⟨q, hq, hqc⟩ := hc
    by_cases hqp : q = p
    · rw [if_pos hqp] at hqc
      exact ⟨b, hb, hqp ▸ hq, (Option.some.inj hqc).symm⟩
    · rw [if_neg hqp] at hqc
      cases hqc
  · rintro ⟨b, hb, hp, rfl⟩
    refine ⟨b, hb, ?_⟩
    rw [List.mem_filterMap]
    exact ⟨p, hp, by rw [if_pos rfl]⟩

theorem getProduct_cc_of_any {p f : String} {r : ProductRecord}
    (h : getProduct p f = .ok r) : ∃ r2, getProduct p "cc" = .ok r2 := by
  unfold getProduct at h
  split at h
  next => exact absurd h (by simp)
  next fam hf =>
    split at h
    next => exact absurd h (by simp)
    next r0 hp =>
      have hkeys : p ∈ fam.map Prod.fst :=
        (lookup_isSome_key fam p).mp (by rw [hp]; rfl)
      have hfm := lookup_key_mem hf
      have hfam4 : fam = family_cc2015_5 ∨ fam = family_cc2015 ∨
          fam = family_cc2014 ∨ fam = family_cc := by
        simp only [HOSTS, List.mem_cons, Prod.mk.injEq, List.not_mem_nil, or_false] at hfm
        rcases hfm with ⟨_, h1⟩ | ⟨_, h1⟩ | ⟨_, h1⟩ | ⟨_, h1⟩
        · exact Or.inl h1
        · exact Or.inr (Or.inl h1)
        · exact Or.inr (Or.inr (Or.inl h1))
        · exact Or.inr (Or.inr (Or.inr h1))
      have hkeq : fam.map Prod.fst = family_cc.map Prod.fst := by
        rcases hfam4 with rfl | rfl | rfl | rfl <;> decide
      rw [hkeq] at hkeys
      obtain ⟨r2, hr2⟩ :=
        Option.isSome_iff_exists.mp ((lookup_isSome_key family_cc p).mpr hkeys)
      refine ⟨r2, ?_⟩
      unfold getProduct
      simp only [show List.lookup "cc" HOSTS = some family_cc from rfl, hr2]

theorem mapToFamilyName_ok {p f : String} {r : ProductRecord}
    (h : getProduct p f = .ok r) : ∃ s, mapToFamilyName p = .ok s := by
  obtain ⟨r2, h2⟩ := getProduct_cc_of_any h
  unfold mapToFamilyName
  rw [h2]
  cases hl : legacyAliasTable.lookup r2.familyname with
  | none => exact ⟨r2.familyname, by simp only [hl]⟩
  | some mapped => exact ⟨mapped, by simp only [hl]⟩

/-- Validity of the build list fed to `generateMXI`: every build declares at
least one family, and every declared (product, family) pair resolves in the
registry. -/
def mxiValid (builds : List BuildInfo) : Prop :=
  ∀ b ∈ builds, famList b.families ≠ [] ∧
    ∀ p ∈ b.products, ∀ f ∈ famList b.families, exceptOk (getProduct p f) = true

instance (builds : List BuildInfo) : Decidable (mxiValid builds) := by
  unfold mxiValid
  infer_instance

theorem mxiValid_contrib {builds : List BuildInfo} (hval : mxiValid builds)
    {p : String} {c : Bool × List String} (hc : c ∈ pContribs p builds) :
    ∃ mn mx, getVersionRange p c.2 = .ok (some mn, some mx) := by
  obtain ⟨b, hb, hp, rfl⟩ := pContribs_mem.mp hc
  obtain ⟨hfam, hres⟩ := hval b hb
  obtain ⟨rs, mn, mx, _, hgv, _⟩ :=
    getVersionRange_spec hfam (fun f hf => hres p hp f hf)
  exact ⟨mn, mx, hgv⟩

/-- Full characterisation of the per-product accumulation of `generateMXI`:
a product has an entry iff some build targets it; its `min` is the smallest
resolved minimum over all builds targeting it; its `max` is `null` iff no
range-mode build targets it, and otherwise the largest resolved maximum among
the range-mode builds targeting it. -/
theorem mxiTargets_char (builds : List BuildInfo) (hval : mxiValid builds) :
    ∃ ts, mxiTargets builds = .ok ts ∧ (ts.map Prod.fst).Nodup ∧
      (∀ p, (ts.lookup p).isSome = true ↔ ∃ b ∈ builds, p ∈ b.products) ∧
      (∀ p t, ts.lookup p = some t →
        (∃ b ∈ builds, p ∈ b.products ∧ t.minFamily = (famList b.families).head?) ∧
        (∃ m, t.vmin = .num m ∧
          (∃ b ∈ builds, p ∈ b.products ∧ resolvedMin p b = some m) ∧
          (∀ b ∈ builds, p ∈ b.products → ∀ v, resolvedMin p b = some v → m ≤ v)) ∧
        ((t.vmax = .null ↔
          ¬ ∃ b ∈ builds, p ∈ b.products ∧ isRangeMode b.families = true) ∧
         (t.vmax = .null ∨ ∃ M, t.vmax = .num M) ∧
         (∀ M, t.vmax = .num M →
           (∃ b ∈ builds, p ∈ b.products ∧ isRangeMode b.families = true ∧
             resolvedMax p b = some M) ∧
           (∀ b ∈ builds, p ∈ b.products → isRangeMode b.families = true →
             ∀ v, resolvedMax p b = some v → v ≤ M)))) := by
  have hval2 : ∀ b ∈ builds, ∀ p ∈ b.products, ∃ range,
      getVersionRange p (famList b.families) = .ok range := by
    intro b hb p hp
    obtain ⟨hfam, hres⟩ := hval b hb
    obtain ⟨rs, mn, mx, _, hgv, _⟩ :=
      getVersionRange_spec hfam (fun f hf => hres p hp f hf)
    exact ⟨(some mn, some mx), hgv⟩
  obtain ⟨ts, hts, hlook, hnd⟩ := mxiTargetsGo_lookup builds [] hval2
  have hlook2 : ∀ p, ts.lookup p = pFoldPure p none (pContribs p builds) := by
    intro p
    rw [hlook p]
    rfl
  refine ⟨ts, hts, hnd (by simp), ?_, ?_⟩
  · intro p
    rw [hlook2 p]
    cases hcon : pContribs p builds with
    | nil =>
      simp only [pFoldPure]
      constructor
      · intro h
        simp at h
      · rintro ⟨b, hb, hp⟩
        have : (isRangeMode b.families, famList b.families) ∈ pContribs p builds :=
          pContribs_mem.mpr ⟨b, hb, hp, rfl⟩
        rw [hcon] at this
        cases this
    | cons c rest =>
      obtain ⟨mn, mx, _, hfold⟩ := pFoldPure_none p c rest
        (fun c2 h2 => mxiValid_contrib hval (by rw [hcon]; exact h2))
      rw [hfold]
      simp only [Option.isSome_some, true_iff]
      have : c ∈ pContribs p builds := by
        rw [hcon]
        simp
      obtain ⟨b, hb, hp, _⟩ := pContribs_mem.mp this
      exact ⟨b, hb, hp⟩
  · intro p t ht
    rw [hlook2 p] at ht
    cases hcon : pContribs p builds with
    | nil =>
      rw [hcon] at ht
      cases ht
    | cons c rest =>
      rw [hcon] at ht
      have hocc : ∀ c2 ∈ (c :: rest), ∃ mn mx,
          getVersionRange p c2.2 = .ok (some mn, some mx) :=
        fun c2 h2 => mxiValid_contrib hval (by rw [hcon]; exact h2)
      obtain ⟨mn, mx, hr, hfold⟩ := pFoldPure_none p c rest hocc
      rw [hfold] at ht
      have htv := Option.some.inj ht
      subst htv
      have hcmem : c ∈ pContribs p builds := by
        rw [hcon]
        simp
      obtain ⟨bc, hbc, hpc, hceq⟩ := pContribs_mem.mp hcmem
      have hrangec : rangeOf p c.2 = (some mn, some mx) := by
        unfold rangeOf
        rw [hr]
      -- translation between contribution values and per-build resolved values
      have hminsOf : ∀ x, x ∈ mn :: minsOf p rest ↔
          ∃ c2 ∈ (c :: rest), ((rangeOf p c2.2).1).getD 0 = x := by
        intro x
        constructor
        · intro hx
          rcases List.mem_cons.mp hx with heq | htl
          · exact ⟨c, by simp, by rw [hrangec]; simpa using heq.symm⟩
          · rw [minsOf, List.mem_map] at htl
            obtain ⟨c2, h2, he⟩ := htl
            exact ⟨c2, by simp [h2], he⟩
        · rintro ⟨c2, h2, he⟩
          rcases List.mem_cons.mp h2 with heq | htl
          · subst heq
            rw [hrangec] at he
            simp at he
            simp [he]
          · apply List.mem_cons_of_mem
            rw [minsOf, List.mem_map]
            exact ⟨c2, htl, he⟩
      refine ⟨⟨bc, hbc, hpc, congrArg List.head? (congrArg Prod.snd hceq)⟩, ?_, ?_⟩
      · -- minimum characterisation
        refine ⟨foldMinN mn (minsOf p rest), rfl, ?_, ?_⟩
        · have hatt := foldMinN_attained mn (minsOf p rest)
          have hx : foldMinN mn (minsOf p rest) ∈ mn :: minsOf p rest := by
            rcases hatt with h | h
            · simp [h]
            · simp [h]
          obtain ⟨c2, h2, he⟩ := (hminsOf _).mp hx
          have hc2mem : c2 ∈ pContribs p builds := by
            rw [hcon]
            exact h2
          obtain ⟨b2, hb2, hp2, hc2eq⟩ := pContribs_mem.mp hc2mem
          obtain ⟨mn2, mx2, hr2⟩ := mxiValid_contrib hval hc2mem
          have : rangeOf p c2.2 = (some mn2, some mx2) := by
            unfold rangeOf
            rw [hr2]
          refine ⟨b2, hb2, hp2, ?_⟩
          have hc2snd : c2.2 = famList b2.families := congrArg Prod.snd hc2eq
          rw [resolvedMin, ← hc2snd, this]
          rw [this] at he
          simp at he
          simp [he]
        · intro b hb hp v hv
          have hbmem : (isRangeMode b.families, famList b.families) ∈ pContribs p builds :=
            pContribs_mem.mpr ⟨b, hb, hp, rfl⟩
          rw [hcon] at hbmem
          have : ((rangeOf p (famList b.families)).1).getD 0 ∈ mn :: minsOf p rest :=
            (hminsOf _).mpr ⟨_, hbmem, rfl⟩
          have hvv : ((rangeOf p (famList b.families)).1).getD 0 = v := by
            rw [resolvedMin] at hv
            rw [hv]
            rfl
          rw [hvv] at this
          rcases List.mem_cons.mp this with heq | htl
          · rw [heq]
            exact (foldMinN_le mn (minsOf p rest)).1
          · exact (foldMinN_le mn (minsOf p rest)).2 _ htl
      · -- maximum characterisation
        have hsrIff : ∀ x, x ∈ srMaxesOf p (c :: rest) ↔
            ∃ c2 ∈ (c :: rest), c2.1 = true ∧ ((rangeOf p c2.2).2).getD 0 = x := by
          intro x
          rw [srMaxesOf, List.mem_map]
          constructor
          · rintro ⟨c2, h2, he⟩
            rw [List.mem_filter] at h2
            exact ⟨c2, h2.1, h2.2, he⟩
          · rintro ⟨c2, h2, hb2, he⟩
            exact ⟨c2, List.mem_filter.mpr ⟨h2, hb2⟩, he⟩
        have hsrNil : srMaxesOf p (c :: rest) = [] ↔
            ∀ c2 ∈ (c :: rest), c2.1 = false := by
          rw [srMaxesOf, List.map_eq_nil_iff, List.filter_eq_nil_iff]
          constructor
          · intro h c2 h2
            have := h c2 h2
            simpa using this
          · intro h c2 h2
            simp [h c2 h2]
        have hbuildIff : (∃ b ∈ builds, p ∈ b.products ∧ isRangeMode b.families = true) ↔
            ∃ c2 ∈ (c :: rest), c2.1 = true := by
          constructor
          · rintro ⟨b, hb, hp, hrm⟩
            have : (isRangeMode b.families, famList b.families) ∈ pContribs p builds :=
              pContribs_mem.mpr ⟨b, hb, hp, rfl⟩
            rw [hcon] at this
            exact ⟨_, this, hrm⟩
          · rintro ⟨c2, h2, hb2⟩
            have hc2mem : c2 ∈ pContribs p builds := by
              rw [hcon]
              exact h2
            obtain ⟨b2, hb2m, hp2, hc2eq⟩ := pContribs_mem.mp hc2mem
            refine ⟨b2, hb2m, hp2, ?_⟩
            exact (congrArg Prod.fst hc2eq).symm.trans hb2
        refine ⟨?_, ?_, ?_⟩
        · cases hs : srMaxesOf p (c :: rest) with
          | nil =>
            simp only [maxState]
            constructor
            · intro _ hex
              obtain ⟨c2, h2, hb2⟩ := hbuildIff.mp hex
              have := hsrNil.mp hs c2 h2
              rw [hb2] at this
              cases this
            · intro _
              trivial
          | cons x xs =>
            simp only [maxState]
            constructor
            · intro h
              cases h
            · intro hnex
              exfalso
              have hx : x ∈ srMaxesOf p (c :: rest) := by
                rw [hs]
                simp
              obtain ⟨c2, h2, hb2, _⟩ := (hsrIff x).mp hx
              exact hnex (hbuildIff.mpr ⟨c2, h2, hb2⟩)
        · cases hs : srMaxesOf p (c :: rest) with
          | nil => exact Or.inl rfl
          | cons x xs => exact Or.inr ⟨foldMaxN x xs, rfl⟩
        · intro M hM
          cases hs : srMaxesOf p (c :: rest) with
          | nil =>
            rw [hs] at hM
            cases hM
          | cons x xs =>
            rw [hs] at hM
            simp only [maxState] at hM
            have hMfold : M = foldMaxN x xs := (JsMaybe.num.inj hM).symm
            constructor
            · have hatt := foldMaxN_attained x xs
              have hMmem : M ∈ srMaxesOf p (c :: rest) := by
                rw [hs]
                rcases hatt with h | h
                · simp [hMfold, h]
                · simp [hMfold, h]
              obtain ⟨c2, h2, hb2, he⟩ := (hsrIff M).mp hMmem
              have hc2mem : c2 ∈ pContribs p builds := by
                rw [hcon]
                exact h2
              obtain ⟨b2, hb2m, hp2, hc2eq⟩ := pContribs_mem.mp hc2mem
              obtain ⟨mn2, mx2, hr2⟩ := mxiValid_contrib hval hc2mem
              have hrg2 : rangeOf p c2.2 = (some mn2, some mx2) := by
                unfold rangeOf
                rw [hr2]
              refine ⟨b2, hb2m, hp2, ?_, ?_⟩
              · exact (congrArg Prod.fst hc2eq).symm.trans hb2
              · have hc2snd : c2.2 = famList b2.families := congrArg Prod.snd hc2eq
                rw [resolvedMax, ← hc2snd, hrg2]
                rw [hrg2] at he
                simp at he
                simp [he]
            · intro b hb hp hrm v hv
              have hbmem : (isRangeMode b.families, famList b.families) ∈ pContribs p builds :=
                pContribs_mem.mpr ⟨b, hb, hp, rfl⟩
              rw [hcon] at hbmem
              have hvmem : ((rangeOf p (famList b.families)).2).getD 0 ∈
                  srMaxesOf p (c :: rest) :=
                (hsrIff _).mpr ⟨_, hbmem, hrm, rfl⟩
              have hvv : ((rangeOf p (famList b.families)).2).getD 0 = v := by
                rw [resolvedMax] at hv
                rw [hv]
                rfl
              rw [hvv, hs] at hvmem
              rw [hMfold]
              rcases List.mem_cons.mp hvmem with heq | htl
              · rw [heq]
                exact (foldMaxN_ge x xs).1
              · exact (foldMaxN_ge x xs).2 _ htl

/-- Success and shape of the `<file>` entries of one build. -/
theorem mxiFileEntriesFor_spec (ts : List (String × MxiTarget)) (outF : String)
    (ps : List String)
    (h : ∀ p ∈ ps, ∃ t fam mn, ts.lookup p = some t ∧
      mapToFamilyName p = .ok fam ∧ jsToFixedJ t.vmin = .ok mn ∧
      (t.vmax = .null ∨ ∃ M, t.vmax = .num M)) :
    ∃ fl, mxiFileEntriesFor ts outF ps = .ok fl ∧
      ∀ p ∈ ps, ∃ t fam mn, ts.lookup p = some t ∧
        mapToFamilyName p = .ok fam ∧ jsToFixedJ t.vmin = .ok mn ∧
        ((t.vmax = .null ∧ fileEntryNoMax fam mn outF ∈ fl) ∨
         (∃ M mxs, t.vmax = .num M ∧ jsToFixedJ t.vmax = .ok mxs ∧
           fileEntryWithMax fam mn mxs outF ∈ fl)) := by
  induction ps with
  | nil => exact ⟨[], rfl, by simp⟩
  | cons p rest ih =>
    obtain ⟨t, fam, mn, hlk, hfam, hmn, hvm⟩ := h p (by simp)
    obtain ⟨fl, hfl, hmem⟩ := ih (fun q hq => h q (by simp [hq]))
    rcases hvm with hnull | ⟨M, hnum⟩
    · have hentry : mxiFileEntry p outF t = .ok (fileEntryNoMax fam mn outF) := by
        unfold mxiFileEntry
        rw [hnull]
        simp only [hfam, hmn]
      refine ⟨fileEntryNoMax fam mn outF :: fl, ?_, ?_⟩
      · simp only [mxiFileEntriesFor, hlk, hentry, hfl]
      · intro q hq
        rcases List.mem_cons.mp hq with heq | htl
        · subst heq
          exact ⟨t, fam, mn, hlk, hfam, hmn, Or.inl ⟨hnull, by simp⟩⟩
        · obtain ⟨t2, fam2, mn2, h1, h2, h3, h4⟩ := hmem q htl
          refine ⟨t2, fam2, mn2, h1, h2, h3, ?_⟩
          rcases h4 with ⟨ha, hb⟩ | ⟨M2, mxs2, ha, hb, hc⟩
          · exact Or.inl ⟨ha, List.mem_cons_of_mem _ hb⟩
          · exact Or.inr ⟨M2, mxs2, ha, hb, List.mem_cons_of_mem _ hc⟩
    · have hentry : mxiFileEntry p outF t =
          .ok (fileEntryWithMax fam mn (fmtTenths M) outF) := by
        unfold mxiFileEntry
        rw [hnum]
        simp only [hfam, hmn]
        rfl
      refine ⟨fileEntryWithMax fam mn (fmtTenths M) outF :: fl, ?_, ?_⟩
      · simp only [mxiFileEntriesFor, hlk, hentry, hfl]
      · intro q hq
        rcases List.mem_cons.mp hq with heq | htl
        · subst heq
          exact ⟨t, fam, mn, hlk, hfam, hmn,
            Or.inr ⟨M, fmtTenths M, hnum, by simp [hnum, jsToFixedJ], by simp⟩⟩
        · obtain ⟨t2, fam2, mn2, h1, h2, h3, h4⟩ := hmem q htl
          refine ⟨t2, fam2, mn2, h1, h2, h3, ?_⟩
          rcases h4 with ⟨ha, hb⟩ | ⟨M2, mxs2, ha, hb, hc⟩
          · exact Or.inl ⟨ha, List.mem_cons_of_mem _ hb⟩
          · exact Or.inr ⟨M2, mxs2, ha, hb, List.mem_cons_of_mem _ hc⟩

/-- Success and shape of the whole `<FileList>` list. -/
theorem mxiFileList_spec (ts : List (String × MxiTarget)) (builds : List BuildInfo)
    (h : ∀ b ∈ builds, ∀ p ∈ b.products, ∃ t fam mn, ts.lookup p = some t ∧
      mapToFamilyName p = .ok fam ∧ jsToFixedJ t.vmin = .ok mn ∧
      (t.vmax = .null ∨ ∃ M, t.vmax = .num M)) :
    ∃ fl, mxiFileList ts builds = .ok fl ∧
      ∀ b ∈ builds, ∀ p ∈ b.products, ∃ t fam mn, ts.lookup p = some t ∧
        mapToFamilyName p = .ok fam ∧ jsToFixedJ t.vmin = .ok mn ∧
        ((t.vmax = .null ∧ fileEntryNoMax fam mn b.outputFile ∈ fl) ∨
         (∃ M mxs, t.vmax = .num M ∧ jsToFixedJ t.vmax = .ok mxs ∧
           fileEntryWithMax fam mn mxs b.outputFile ∈ fl)) := by
  induction builds with
  | nil => exact ⟨[], rfl, by simp⟩
  | cons b rest ih =>
    obtain ⟨fl1, hfl1, hmem1⟩ :=
      mxiFileEntriesFor_spec ts b.outputFile b.products (h b (by simp))
    obtain ⟨fl2, hfl2, hmem2⟩ := ih (fun b2 hb2 => h b2 (by simp [hb2]))
    refine ⟨fl1 ++ fl2, ?_, ?_⟩
    · simp only [mxiFileList, hfl1, hfl2]
    · intro b2 hb2 p hp
      rcases List.mem_cons.mp hb2 with heq | htl
      · subst heq
        obtain ⟨t, fam, mn, h1, h2, h3, h4⟩ := hmem1 p hp
        refine ⟨t, fam, mn, h1, h2, h3, ?_⟩
        rcases h4 with ⟨ha, hb⟩ | ⟨M2, mxs2, ha, hb, hc⟩
        · exact Or.inl ⟨ha, List.mem_append_left _ hb⟩
        · exact Or.inr ⟨M2, mxs2, ha, hb, List.mem_append_left _ hc⟩
      · obtain ⟨t, fam, mn, h1, h2, h3, h4⟩ := hmem2 b2 htl p hp
        refine ⟨t, fam, mn, h1, h2, h3, ?_⟩
        rcases h4 with ⟨ha, hb⟩ | ⟨M2, mxs2, ha, hb, hc⟩
        · exact Or.inl ⟨ha, List.mem_append_right _ hb⟩
        · exact Or.inr ⟨M2, mxs2, ha, hb, List.mem_append_right _ hc⟩

/-- Success and shape of the `<product>` list. -/
theorem mxiProductList_spec (ts : List (String × MxiTarget))
    (h : ∀ kv ∈ ts, ∃ r mn, getProductJ kv.1 kv.2.minFamily = .ok r ∧
      jsToFixedJ kv.2.vmin = .ok mn ∧
      (kv.2.vmax = .null ∨ ∃ M, kv.2.vmax = .num M)) :
    ∃ pl, mxiProductList ts = .ok pl ∧
      ∀ kv ∈ ts, ∃ r mn, getProductJ kv.1 kv.2.minFamily = .ok r ∧
        jsToFixedJ kv.2.vmin = .ok mn ∧
        ((kv.2.vmax = .null ∧
           productEntryNoMax (familyNameProducts.contains kv.1) r.familyname mn ∈ pl) ∨
         (∃ M mxs, kv.2.vmax = .num M ∧ jsToFixedJ kv.2.vmax = .ok mxs ∧
           productEntryWithMax (familyNameProducts.contains kv.1) r.familyname mn mxs ∈ pl)) := by
  induction ts with
  | nil => exact ⟨[], rfl, by simp⟩
  | cons kv rest ih =>
    obtain ⟨r, mn, hr, hmn, hvm⟩ := h kv (by simp)
    obtain ⟨pl, hpl, hmem⟩ := ih (fun kv2 h2 => h kv2 (by simp [h2]))
    rcases hvm with hnull | ⟨M, hnum⟩
    · have hentry : mxiProductEntry kv.1 kv.2 =
          .ok (productEntryNoMax (familyNameProducts.contains kv.1) r.familyname mn) := by
        unfold mxiProductEntry
        rw [hnull]
        simp only [hr, hmn]
      refine ⟨productEntryNoMax (familyNameProducts.contains kv.1) r.familyname mn :: pl,
        ?_, ?_⟩
      · simp only [mxiProductList, hentry, hpl]
      · intro kv2 h2
        rcases List.mem_cons.mp h2 with heq | htl
        · subst heq
          exact ⟨r, mn, hr, hmn, Or.inl ⟨hnull, by simp⟩⟩
        · obtain ⟨r2, mn2, h1, h3, h4⟩ := hmem kv2 htl
          refine ⟨r2, mn2, h1, h3, ?_⟩
          rcases h4 with ⟨ha, hb⟩ | ⟨M2, mxs2, ha, hb, hc⟩
          · exact Or.inl ⟨ha, List.mem_cons_of_mem _ hb⟩
          · exact Or.inr ⟨M2, mxs2, ha, hb, List.mem_cons_of_mem _ hc⟩
    · have hentry : mxiProductEntry kv.1 kv.2 =
          .ok (productEntryWithMax (familyNameProducts.contains kv.1)
            r.familyname mn (fmtTenths M)) := by
        unfold mxiProductEntry
        rw [hnum]
        simp only [hr, hmn]
        rfl
      refine ⟨productEntryWithMax (familyNameProducts.contains kv.1)
          r.familyname mn (fmtTenths M) :: pl, ?_, ?_⟩
      · simp only [mxiProductList, hentry, hpl]
      · intro kv2 h2
        rcases List.mem_cons.mp h2 with heq | htl
        · subst heq
          exact ⟨r, mn, hr, hmn,
            Or.inr ⟨M, fmtTenths M, hnum, by simp [hnum, jsToFixedJ], by simp⟩⟩
        · obtain ⟨r2, mn2, h1, h3, h4⟩ := hmem kv2 htl
          refine ⟨r2, mn2, h1, h3, ?_⟩
          rcases h4 with ⟨ha, hb⟩ | ⟨M2, mxs2, ha, hb, hc⟩
          · exact Or.inl ⟨ha, List.mem_cons_of_mem _ hb⟩
          · exact Or.inr ⟨M2, mxs2, ha, hb, List.mem_cons_of_mem _ hc⟩

/-- C3: in the aggregate descriptor built by `generateMXI`, for each distinct
targeted product the file-list entries and the product entry carry a
`maxVersion`/`maxversion` attribute iff at least one contributing build
targeting that product declared its families in range (array) mode; when
present its value is the largest resolved max among those range-mode builds,
and the `minVersion` value is always the smallest resolved min across all
builds targeting that product. -/
theorem C3_generateMXI_version_attributes (builds : List BuildInfo)
    (hval : mxiValid builds) :
    ∃ ts, mxiTargets builds = .ok ts ∧
      (∀ p, (ts.lookup p).isSome = true ↔ ∃ b ∈ builds, p ∈ b.products) ∧
      (∀ p t, ts.lookup p = some t →
        (∃ m, t.vmin = .num m ∧
          (∃ b ∈ builds, p ∈ b.products ∧ resolvedMin p b = some m) ∧
          (∀ b ∈ builds, p ∈ b.products → ∀ v, resolvedMin p b = some v → m ≤ v)) ∧
        ((t.vmax ≠ .null ↔
          ∃ b ∈ builds, p ∈ b.products ∧ isRangeMode b.families = true) ∧
         (t.vmax = .null ∨ ∃ M, t.vmax = .num M) ∧
         (∀ M, t.vmax = .num M →
           (∃ b ∈ builds, p ∈ b.products ∧ isRangeMode b.families = true ∧
             resolvedMax p b = some M) ∧
           (∀ b ∈ builds, p ∈ b.products → isRangeMode b.families = true →
             ∀ v, resolvedMax p b = some v → v ≤ M)))) ∧
      (∃ fl, mxiFileList ts builds = .ok fl ∧
        ∀ b ∈ builds, ∀ p ∈ b.products, ∃ t fam mn, ts.lookup p = some t ∧
          mapToFamilyName p = .ok fam ∧ jsToFixedJ t.vmin = .ok mn ∧
          ((t.vmax = .null ∧ fileEntryNoMax fam mn b.outputFile ∈ fl) ∨
           (∃ M mxs, t.vmax = .num M ∧ jsToFixedJ t.vmax = .ok mxs ∧
             fileEntryWithMax fam mn mxs b.outputFile ∈ fl))) ∧
      (∃ pl, mxiProductList ts = .ok pl ∧
        ∀ kv ∈ ts, ∃ r mn, getProductJ kv.1 kv.2.minFamily = .ok r ∧
          jsToFixedJ kv.2.vmin = .ok mn ∧
          ((kv.2.vmax = .null ∧
             productEntryNoMax (familyNameProducts.contains kv.1) r.familyname mn ∈ pl) ∨
           (∃ M mxs, kv.2.vmax = .num M ∧ jsToFixedJ kv.2.vmax = .ok mxs ∧
             productEntryWithMax (familyNameProducts.contains kv.1) r.familyname mn mxs ∈ pl))) := by
  obtain ⟨ts, hts, hnd, hpres, hchar⟩ := mxiTargets_char builds hval
  have hpack : ∀ b ∈ builds, ∀ p ∈ b.products, ∃ t fam mn, ts.lookup p = some t ∧
      mapToFamilyName p = .ok fam ∧ jsToFixedJ t.vmin = .ok mn ∧
      (t.vmax = .null ∨ ∃ M, t.vmax = .num M) := by
    intro b hb p hp
    obtain ⟨t, ht⟩ := Option.isSome_iff_exists.mp ((hpres p).mpr ⟨b, hb, hp⟩)
    obtain ⟨_, ⟨m, hm, _, _⟩, hmaxf⟩ := hchar p t ht
    obtain ⟨hfamne, hres⟩ := hval b hb
    cases hfl2 : famList b.families with
    | nil => exact absurd hfl2 hfamne
    | cons f0 frest =>
      have hok := hres p hp f0 (by rw [hfl2]; simp)
      cases hgp : getProduct p f0 with
      | error e =>
        rw [hgp] at hok
        simp [exceptOk] at hok
      | ok r =>
        obtain ⟨fam, hfam⟩ := mapToFamilyName_ok hgp
        exact ⟨t, fam, fmtTenths m, ht, hfam, by simp [hm, jsToFixedJ], hmaxf.2.1⟩
  obtain ⟨fl, hfl, hflmem⟩ := mxiFileList_spec ts builds hpack
  have hppack : ∀ kv ∈ ts, ∃ r mn, getProductJ kv.1 kv.2.minFamily = .ok r ∧
      jsToFixedJ kv.2.vmin = .ok mn ∧
      (kv.2.vmax = .null ∨ ∃ M, kv.2.vmax = .num M) := by
    intro kv hkv
    have hlkv : ts.lookup kv.1 = some kv.2 := lookup_of_mem_nodup hkv hnd
    obtain ⟨⟨b, hb, hp, hmf⟩, ⟨m, hm, _, _⟩, hmaxf⟩ := hchar kv.1 kv.2 hlkv
    obtain ⟨hfamne, hres⟩ := hval b hb
    cases hfl2 : famList b.families with
    | nil => exact absurd hfl2 hfamne
    | cons f0 frest =>
      have hok := hres kv.1 hp f0 (by rw [hfl2]; simp)
      cases hgp : getProduct kv.1 f0 with
      | error e =>
        rw [hgp] at hok
        simp [exceptOk] at hok
      | ok r =>
        have hmf2 : kv.2.minFamily = some f0 := by
          rw [hmf, hfl2]
          rfl
        refine ⟨r, fmtTenths m, ?_, by simp [hm, jsToFixedJ], hmaxf.2.1⟩
        rw [hmf2]
        unfold getProductJ
        exact hgp
  obtain ⟨pl, hpl, hplmem⟩ := mxiProductList_spec ts hppack
  refine ⟨ts, hts, hpres, ?_, ⟨fl, hfl, hflmem⟩, ⟨pl, hpl, hplmem⟩⟩
  intro p t ht
  obtain ⟨_, hminf, hmaxf⟩ := hchar p t ht
  refine ⟨hminf, ?_, hmaxf.2.1, hmaxf.2.2⟩
  constructor
  · intro hne
    by_cases hex : ∃ b ∈ builds, p ∈ b.products ∧ isRangeMode b.families = true
    · exact hex
    · exact absurd (hmaxf.1.mpr hex) hne
  · intro hex heq
    exact (hmaxf.1.mp heq) hex

/-- The spec's example: one minimum-mode and one range-mode build, both
targeting `photoshop`. -/
def demoBuilds : List BuildInfo :=
  [⟨["photoshop"], .single "cc2015", "a.zxp"⟩,
   ⟨["photoshop"], .multi ["cc2014", "cc2015"], "b.zxp"⟩]

/-- Witness for C3 at the two-build example: the hypotheses hold and the
conclusion is obtained by applying the theorem. -/
theorem C3_witness :
    mxiValid demoBuilds ∧
    (∃ ts, mxiTargets demoBuilds = .ok ts ∧
      (∀ p, (ts.lookup p).isSome = true ↔ ∃ b ∈ demoBuilds, p ∈ b.products) ∧
      (∀ p t, ts.lookup p = some t →
        (∃ m, t.vmin = .num m ∧
          (∃ b ∈ demoBuilds, p ∈ b.products ∧ resolvedMin p b = some m) ∧
          (∀ b ∈ demoBuilds, p ∈ b.products → ∀ v, resolvedMin p b = some v → m ≤ v)) ∧
        ((t.vmax ≠ .null ↔
          ∃ b ∈ demoBuilds, p ∈ b.products ∧ isRangeMode b.families = true) ∧
         (t.vmax = .null ∨ ∃ M, t.vmax = .num M) ∧
         (∀ M, t.vmax = .num M →
           (∃ b ∈ demoBuilds, p ∈ b.products ∧ isRangeMode b.families = true ∧
             resolvedMax p b = some M) ∧
           (∀ b ∈ demoBuilds, p ∈ b.products → isRangeMode b.families = true →
             ∀ v, resolvedMax p b = some v → v ≤ M)))) ∧
      (∃ fl, mxiFileList ts demoBuilds = .ok fl ∧
        ∀ b ∈ demoBuilds, ∀ p ∈ b.products, ∃ t fam mn, ts.lookup p = some t ∧
          mapToFamilyName p = .ok fam ∧ jsToFixedJ t.vmin = .ok mn ∧
          ((t.vmax = .null ∧ fileEntryNoMax fam mn b.outputFile ∈ fl) ∨
           (∃ M mxs, t.vmax = .num M ∧ jsToFixedJ t.vmax = .ok mxs ∧
             fileEntryWithMax fam mn mxs b.outputFile ∈ fl))) ∧
      (∃ pl, mxiProductList ts = .ok pl ∧
        ∀ kv ∈ ts, ∃ r mn, getProductJ kv.1 kv.2.minFamily = .ok r ∧
          jsToFixedJ kv.2.vmin = .ok mn ∧
          ((kv.2.vmax = .null ∧
             productEntryNoMax (familyNameProducts.contains kv.1) r.familyname mn ∈ pl) ∨
           (∃ M mxs, kv.2.vmax = .num M ∧ jsToFixedJ kv.2.vmax = .ok mxs ∧
             productEntryWithMax (familyNameProducts.contains kv.1) r.familyname mn mxs ∈ pl)))) :=
  ⟨by decide, C3_generateMXI_version_attributes demoBuilds (by decide)⟩

end Cepy
